import Mathlib

/-!
Verification of the post-compose publishing pipeline of
`build_scripts/post_actions.py` (AlmaLinux pungi scripts).

Filesystem trees are shallowly embedded as collections of paths, where a
path is its list of components (`Path('a/b/c')` becomes `["a", "b", "c"]`).
`shutil.rmtree` removes every path that has the given path as a prefix,
`Path.rename` on a directory relabels the prefix of every path below it,
and `os.makedirs(..., exist_ok=True)` inserts every ancestor of the given
path.  JSON manifests are embedded as nested association lists mirroring
the structure the code reads (`payload.rpms`, `payload.variants`,
`payload.images`).  `str.startswith` / glob suffix patterns such as
`*.iso` are embedded through the character lists of the strings involved.
-/

set_option synthInstance.maxSize 4000

set_option maxRecDepth 4000

/-- Component-wise prefix test: `isUnder p q` holds when the path `q` lies in
the subtree rooted at `p` (including `p` itself). -/
def isUnder : List String → List String → Bool
  | [], _ => true
  | _ :: _, [] => false
  | a :: p, b :: q => a == b && isUnder p q

/-- All ancestors of a path, including the root `[]` and the path itself;
this is what `os.makedirs(path, exist_ok=True)` guarantees to exist. -/
def ancestors : List String → List (List String)
  | [] => [[]]
  | a :: p => [] :: (ancestors p).map (a :: ·)

/-- `str.startswith` of Python, embedded through character lists. -/
def strStartsW (s pre : String) : Bool := pre.data.isPrefixOf s.data

/-- Matching of a glob pattern `*X` against a file name, i.e. `str.endswith`,
embedded through character lists. -/
def strEndsW (s sfx : String) : Bool := sfx.data.isSuffixOf s.data

/-- `Path(...).joinpath(...)` on a list of textual parts: empty parts are
dropped, exactly as `pathlib` drops empty path fragments. -/
def pyJoin (parts : List String) : List String := parts.filter (fun s => !(s == ""))

/-- `Path(p).parent.name` for a relative path given by its components. -/
def pyParentDirName (p : List String) : String := (p.dropLast.getLast?).getD ""

/-- `Path(p).name` for a relative path given by its components. -/
def pyBaseName (p : List String) : String := (p.getLast?).getD ""

/-- `PATH_DICTIONARY` of `post_actions.py` with the `{arch}` substitution of
`str.format` already applied; unknown categories give `None` (the
`defaultdict(lambda: None, ...)` fallback).  The mapped subpaths are returned
as component lists. -/
def pathDictionary (category arch : String) : Option (List String) :=
  if category = "debug" then some ["debug", arch]
  else if category = "source" then some ["Source"]
  else if category = "source_packages" then some ["Source", "Packages"]
  else if category = "source_repository" then some ["Source"]
  else if category = "source_tree" then some ["Source"]
  else if category = "debug_packages" then some ["debug", arch, "Packages"]
  else if category = "debug_repository" then some ["debug", arch]
  else if category = "debug_tree" then some ["debug", arch]
  else none

/-- `shutil.rmtree` on a set-of-paths filesystem: every path inside the
subtree rooted at `p` (including `p`) disappears. -/
def rmtreeP (p : List String) (fs : List (List String)) : List (List String) :=
  fs.filter (fun q => !(isUnder p q))

/-- `Path.rename` of a directory: every path in the subtree rooted at `src`
is relabelled to live below `dst`; paths outside the subtree are kept. -/
def renameSubtree (src dst : List String) (fs : List (List String)) : List (List String) :=
  fs.filter (fun q => !(isUnder src q)) ++
    (fs.filter (fun q => isUnder src q)).map (fun q => dst ++ q.drop src.length)

/-- `os.makedirs(p, exist_ok=True)`. -/
def makedirsP (p : List String) (fs : List (List String)) : List (List String) :=
  ancestors p ++ fs

/-- `move_sources_folder_to_right_place` of `post_actions.py`:
if `<latest>/<repo>/source` exists, rename `<latest>/<repo>/source/tree`
to `<latest>/<repo>/Source` (the `PATH_DICTIONARY['source']` target) and
remove the `source` wrapper. -/
def moveSourcesFolderToRightPlace (latest : List String) (repoName : String)
    (fs : List (List String)) : List (List String) :=
  let src := latest ++ [repoName, "source"]
  let dst := latest ++ [repoName, "Source"]
  if src ∈ fs then rmtreeP src (renameSubtree (src ++ ["tree"]) dst fs) else fs

/-- `move_debug_folder_to_right_place` of `post_actions.py`:
if `<latest>/<repo>/<arch>/debug` exists, create the parents of
`<latest>/<repo>/debug/<arch>` (the `PATH_DICTIONARY['debug']` target with
`{arch}` substituted), rename `<latest>/<repo>/<arch>/debug/tree` there and
remove the `debug` wrapper. -/
def moveDebugFolderToRightPlace (latest : List String) (repoName arch : String)
    (fs : List (List String)) : List (List String) :=
  let src := latest ++ [repoName, arch, "debug"]
  let dst := latest ++ [repoName, "debug", arch]
  if src ∈ fs then
    rmtreeP src (renameSubtree (src ++ ["tree"]) dst (makedirsP (latest ++ [repoName, "debug"]) fs))
  else fs

/-- The per-variant tree reorganization of `cli_main`: sources first, then
the debug tree (lines 692-700 of `post_actions.py`). -/
def treeReorganize (latest : List String) (repoName arch : String)
    (fs : List (List String)) : List (List String) :=
  moveDebugFolderToRightPlace latest repoName arch
    (moveSourcesFolderToRightPlace latest repoName fs)

/-- A filesystem with hardlink-aware regular files: `files` associates a path
with the identifier of the inode backing it, `next` is the next unused inode
identifier, and `dirs` lists the directories.  Two paths mapped to the same
inode are hardlinks of each other. -/
structure FSI where
  dirs : List (List String)
  files : List (List String × Nat)
  next : Nat
deriving DecidableEq

/-- `shutil.copytree(src, dst, copy_function=os.link)`: directories below
`src` are recreated below `dst`, and every regular file below `src` gains a
second path below `dst` backed by the same inode (a hardlink). -/
def linkTree (src dst : List String) (fs : FSI) : FSI :=
  { fs with
    dirs := fs.dirs ++ (fs.dirs.filter (fun d => isUnder src d)).map
      (fun d => dst ++ d.drop src.length),
    files := fs.files ++ (fs.files.filter (fun f => isUnder src f.1)).map
      (fun f => (dst ++ f.1.drop src.length, f.2)) }

/-- Fresh duplicates of a list of files below a new root: each file receives
the next unused inode identifier, so no copy shares an inode with anything
older. -/
def freshCopies (srcLen : Nat) (dst : List String) :
    List (List String × Nat) → Nat → List (List String × Nat)
  | [], _ => []
  | f :: rest, n => (dst ++ f.1.drop srcLen, n) :: freshCopies srcLen dst rest (n + 1)

/-- `shutil.copytree(src, dst)` with the default copy function: directories
are recreated and every file below `src` is duplicated below `dst` as an
independent copy (fresh inode). -/
def copyTreeFresh (src dst : List String) (fs : FSI) : FSI :=
  let sf := fs.files.filter (fun f => isUnder src f.1)
  { dirs := fs.dirs ++ (fs.dirs.filter (fun d => isUnder src d)).map
      (fun d => dst ++ d.drop src.length),
    files := fs.files ++ freshCopies src.length dst sf fs.next,
    next := fs.next + sf.length }

/-- `shutil.rmtree` on an inode-aware filesystem. -/
def rmtreeI (p : List String) (fs : FSI) : FSI :=
  { fs with
    dirs := fs.dirs.filter (fun d => !(isUnder p d)),
    files := fs.files.filter (fun f => !(isUnder p f.1)) }

/-- `create_kickstart_folder` of `post_actions.py`: when
`<latest>/<repo>/<arch>/os` exists and `<latest>/<repo>/<arch>/kickstart`
does not, hardlink-copy the whole `os` tree to `kickstart`, then delete the
hardlinked `kickstart/repodata` and copy `os/repodata` there afresh. -/
def createKickstartFolder (latest : List String) (repoName arch : String) (fs : FSI) : FSI :=
  let src := latest ++ [repoName, arch, "os"]
  let dst := latest ++ [repoName, arch, "kickstart"]
  if src ∈ fs.dirs ∧ dst ∉ fs.dirs then
    copyTreeFresh (src ++ ["repodata"]) (dst ++ ["repodata"])
      (rmtreeI (dst ++ ["repodata"]) (linkTree src dst fs))
  else fs

/-- Every inode identifier recorded in the filesystem is below the `next`
counter; this is the invariant any reachable `FSI` satisfies. -/
def wfInodes (fs : FSI) : Bool := fs.files.all (fun f => f.2 < fs.next)

/-- A filesystem with file contents: `files` associates a path with the text
of the file, `dirs` lists the directories. -/
structure FS6 where
  dirs : List (List String)
  files : List (List String × String)
deriving DecidableEq

/-- Content of the file at path `p`, or `none` when no such file exists. -/
def lookupF (files : List (List String × String)) (p : List String) : Option String :=
  (files.find? (fun f => f.1 == p)).map (fun f => f.2)

/-- `childName d p` returns `some n` exactly when `p = d ++ [n]`, i.e. when
`p` is a direct child of the directory `d` named `n`. -/
def childName (d p : List String) : Option String :=
  if p.length = d.length + 1 && isUnder d p then p.getLast? else none

/-- `Path(d).glob('*' + sfx)` over the current files: the direct children of
`d` whose name ends with `sfx`, listed with their contents. -/
def globChildren (d : List String) (sfx : String)
    (files : List (List String × String)) : List (String × String) :=
  files.filterMap (fun f =>
    (childName d f.1).bind (fun n => if strEndsW n sfx then some (n, f.2) else none))

/-- One iteration of the move loop in
`move_iso_and_its_artifacts_to_isos_arch_folder`: skip when the source file
vanished or the destination already exists, otherwise rename
`srcDir/<name>` to `dstDir/<name>`. -/
def move1 (srcDir dstDir : List String) (fs : FS6) (nc : String × String) : FS6 :=
  if !(fs.files.any (fun f => f.1 == srcDir ++ [nc.1])) then fs
  else if fs.files.any (fun f => f.1 == dstDir ++ [nc.1]) then fs
  else { fs with files := fs.files.filter (fun f => !(f.1 == srcDir ++ [nc.1]))
    ++ [(dstDir ++ [nc.1], nc.2)] }

/-- The move loop over one glob result list. -/
def moveFilesL (srcDir dstDir : List String) (fs : FS6) : List (String × String) → FS6
  | [] => fs
  | nc :: rest => moveFilesL srcDir dstDir (move1 srcDir dstDir fs nc) rest

/-- One `for src_file_path in src_iso_folder_path.glob(ext_of_file)` pass. -/
def movePass (srcDir dstDir : List String) (sfx : String) (fs : FS6) : FS6 :=
  moveFilesL srcDir dstDir fs (globChildren srcDir sfx fs.files)

/-- Full overwrite of the file at `p` with content `c` (creating it when
absent). -/
def setContentF (p : List String) (c : String) (fs : FS6) : FS6 :=
  { fs with files := fs.files.filter (fun f => !(f.1 == p)) ++ [(p, c)] }

/-- The CHECKSUM consolidation step of
`move_iso_and_its_artifacts_to_isos_arch_folder`: when
`srcIso/CHECKSUM` exists, open `isosDir/CHECKSUM` in `a+` mode and append
the source content to it (creating the destination when missing). -/
def appendChecksum (srcIso isosDir : List String) (fs : FS6) : FS6 :=
  match lookupF fs.files (srcIso ++ ["CHECKSUM"]) with
  | none => fs
  | some c =>
    setContentF (isosDir ++ ["CHECKSUM"])
      (((lookupF fs.files (isosDir ++ ["CHECKSUM"])).getD "") ++ c) fs

/-- `os.makedirs` on a contents filesystem. -/
def makedirsF (p : List String) (fs : FS6) : FS6 :=
  { fs with dirs := ancestors p ++ fs.dirs }

/-- `shutil.rmtree` on a contents filesystem. -/
def rmtreeF (p : List String) (fs : FS6) : FS6 :=
  { dirs := fs.dirs.filter (fun d => !(isUnder p d)),
    files := fs.files.filter (fun f => !(isUnder p f.1)) }

/-- Everything `move_iso_and_its_artifacts_to_isos_arch_folder` does after
the existence guard and before the final `rmtree`: the per-extension move
passes followed by the CHECKSUM append.  This is exactly the filesystem
state at the moment `rmtree(src_iso_folder_path)` runs. -/
def collectIsoMoves (srcIso isosDir : List String) (exts : List String) (fs : FS6) : FS6 :=
  appendChecksum srcIso isosDir (exts.foldl (fun f sfx => movePass srcIso isosDir sfx f) fs)

/-- `move_iso_and_its_artifacts_to_isos_arch_folder` of `post_actions.py`.
`exts` holds the suffixes of the requested glob patterns (the CLI passes
`*.iso` and `*.manifest`, i.e. suffixes `.iso` and `.manifest`).  The
`isos/<arch>` directory is created first, then the function returns early if
the per-variant `iso` directory is absent; otherwise files are moved, the
CHECKSUM is appended, and the `iso` directory is removed unconditionally. -/
def moveIsoAndItsArtifactsToIsosArchFolder (srcRoot : List String) (repoName arch : String)
    (exts : List String) (dstRoot : Option (List String)) (fs : FS6) : FS6 :=
  let srcIso := srcRoot ++ [repoName, arch, "iso"]
  let isosDir := (dstRoot.getD srcRoot) ++ ["isos", arch]
  let fs1 := makedirsF isosDir fs
  if fs1.dirs.contains srcIso then rmtreeF srcIso (collectIsoMoves srcIso isosDir exts fs1)
  else fs1

/-- Paths of a file list are pairwise distinct (a real directory tree never
holds two files at the same path). -/
@[reducible] def pathsNodup (files : List (List String × String)) : Prop :=
  (files.map Prod.fst).Nodup

/-- The state `rename_latest_dir` works on: the name of the directory the
`latest-*` symlink currently resolves to (`Path(os.readlink(...)).name`) and
the names of the sibling directories next to it. -/
structure LatestLink where
  target : String
  dirNames : List String
deriving DecidableEq

/-- `rename_latest_dir` of `post_actions.py` at Unix time `ts`: when the
symlink target's name starts with `last_compose_dir` and the directory
exists, rename it to `<ts>-<name>` and repoint the symlink; otherwise leave
everything untouched. -/
def renameLatestDir (ts : Nat) (st : LatestLink) : LatestLink :=
  if !(strStartsW st.target "last_compose_dir") then st
  else
    let newName := toString ts ++ "-" ++ st.target
    if !(st.dirNames.contains st.target) then st
    else { target := newName, dirNames := newName :: st.dirNames.erase st.target }

/-- The inputs `copy_updateinfo_from_platform_repos` inspects: whether the
destination `<repo>/<arch>/os` tree exists, the ordered glob matches of
`platform-almalinux-[0-9]-<repo>-<arch>/repodata/*updateinfo*`, and the file
names already present in the destination `repodata` directory. -/
structure UpdState where
  osTreeOk : Bool
  globMatches : List String
  dstFiles : List String
deriving DecidableEq

/-- The `for path in src_repos_path.glob(...)` loop of
`copy_updateinfo_from_platform_repos`: every branch of the body returns, so
only the first match is examined; falling out of an empty loop logs the
warning.  The result is the list of copied-and-registered file names paired
with the warning flag. -/
def copyUpdateinfoLoop (dstFiles : List String) : List String → List String × Bool
  | [] => ([], true)
  | m :: _ => if m ∈ dstFiles then ([], false) else ([m], false)

/-- `copy_updateinfo_from_platform_repos` of `post_actions.py`, returning
which updateinfo files get copied (and immediately registered with
`modifyrepo_c`) and whether the missing-updateinfo warning is logged. -/
def copyUpdateinfoFromPlatformRepos (st : UpdState) : List String × Bool :=
  if !(st.osTreeOk) then ([], false)
  else copyUpdateinfoLoop st.dstFiles st.globMatches

/-- A parsed `.treeinfo` file as `configparser` sees it: a list of sections,
each holding a list of key/value options. -/
abbrev TreeinfoConfig := List (String × List (String × String))

/-- `ConfigParser.set` on one section's options: replace the value of an
existing key in place, or append the key when new. -/
def setKeyVal (kvs : List (String × String)) (key val : String) : List (String × String) :=
  if kvs.any (fun kv => kv.1 == key) then
    kvs.map (fun kv => if kv.1 = key then (key, val) else kv)
  else kvs ++ [(key, val)]

/-- `ConfigParser.set(section=sec, option=key, value=val)` applied to the
sections that exist; `post_actions.py` calls it only after the config was
read from disk. -/
def setOption (cfg : TreeinfoConfig) (sec key val : String) : TreeinfoConfig :=
  cfg.map (fun s => if s.1 = sec then (s.1, setKeyVal s.2 key val) else s)

/-- Whether a section is present (`section in ConfigParser.sections()`). -/
def hasSection (cfg : TreeinfoConfig) (sec : String) : Bool :=
  cfg.any (fun s => s.1 == sec)

/-- First-match option lookup (`ConfigParser.get`). -/
def getOption (cfg : TreeinfoConfig) (sec key : String) : Option String :=
  (cfg.find? (fun s => s.1 == sec)).bind
    (fun s => (s.2.find? (fun kv => kv.1 == key)).map (fun kv => kv.2))

/-- `update_timestamp_in_treeinfo` of `post_actions.py`: `none` stands for a
missing `.treeinfo` path (the function returns without touching anything);
for an existing file the keys `general.timestamp` and `tree.build_timestamp`
are set to the stringified timestamp and the file is rewritten.
`ConfigParser.set` raises `NoSectionError` when the section is absent, which
aborts before the file is rewritten; that outcome is `Except.error`. -/
def updateTimestampInTreeinfo (ts : Nat) (file : Option TreeinfoConfig) :
    Except Unit (Option TreeinfoConfig) :=
  match file with
  | none => Except.ok none
  | some cfg =>
    if hasSection cfg "general" ∧ hasSection cfg "tree" then
      Except.ok (some (setOption (setOption cfg "general" "timestamp" (toString ts))
        "tree" "build_timestamp" (toString ts)))
    else Except.error ()

/-- The `.treeinfo` sweep of `cli_main` for one compose result: a single
`build_timestamp = int(time())` is computed before the per-repo loop and the
same value is passed to `update_timestamp_in_treeinfo` for every `.treeinfo`
file found below the processed variants. -/
def processTreeinfosOnce (ts : Nat) (files : List (Option TreeinfoConfig)) :
    List (Except Unit (Option TreeinfoConfig)) :=
  files.map (updateTimestampInTreeinfo ts)

/-- One artifact entry of `rpms.json` with the fields the rewriter touches:
its `path` (as components) and its `category`; `other` stands for the
remaining fields, which are carried along untouched. -/
structure RpmArtifact where
  path : List String
  category : String
  other : String
deriving DecidableEq

/-- `content['payload']['rpms']`: variant name, then architecture, then
source package, then artifact name, then the artifact data. -/
abbrev RpmsManifest :=
  List (String × List (String × List (String × List (String × RpmArtifact))))

/-- `content['payload']['variants']` of `composeinfo.json`: variant name,
then path-type, then architecture, then the path value (as components). -/
abbrev ComposeInfoManifest :=
  List (String × List (String × List (String × List String)))

/-- One image entry of `images.json`: its `path` plus the remaining fields,
which `dict(image, **{'path': ...})` copies unchanged. -/
structure ImageEntry where
  path : List String
  other : String
deriving DecidableEq

/-- `content['payload']['images']`: variant name, then architecture, then
the list of image entries. -/
abbrev ImagesManifest := List (String × List (String × List ImageEntry))

/-- The per-artifact rewrite of `post_processing_rpms_json_metadata`: when
the category is mapped, the path becomes
`Path(variant).joinpath(suffix, old.parent.name, old.name)`; otherwise the
artifact is left alone (`continue`). -/
def rewriteRpmArtifact (variant arch : String) (a : RpmArtifact) : RpmArtifact :=
  match pathDictionary a.category arch with
  | none => a
  | some sfx =>
    { a with path := pyJoin ([variant] ++ sfx ++ [pyParentDirName a.path, pyBaseName a.path]) }

/-- `post_processing_rpms_json_metadata` of `post_actions.py` on the parsed
manifest: the variant named `Minimal` is skipped by the rewrite loop and
deleted just before the file is written back; every other variant has each
artifact rewritten with the architecture key it sits under. -/
def postProcessingRpmsJsonMetadata (m : RpmsManifest) : RpmsManifest :=
  (m.map (fun ve =>
    if ve.1 = "Minimal" then ve
    else (ve.1, ve.2.map (fun ae =>
      (ae.1, ae.2.map (fun se =>
        (se.1, se.2.map (fun arte =>
          (arte.1, rewriteRpmArtifact ve.1 ae.1 arte.2))))))))).filter
    (fun ve => !(ve.1 == "Minimal"))

/-- `post_processing_compose_info_json_metadata` of `post_actions.py`: for
every path-type with a canonical mapping the stored path is replaced
wholesale by `Path(variant).joinpath(suffix)`; unmapped path-types are left
unchanged; the variant `Minimal` is skipped and then deleted. -/
def postProcessingComposeInfoJsonMetadata (m : ComposeInfoManifest) : ComposeInfoManifest :=
  (m.map (fun ve =>
    if ve.1 = "Minimal" then ve
    else (ve.1, ve.2.map (fun pte =>
      (pte.1, pte.2.map (fun ae =>
        (ae.1, match pathDictionary pte.1 ae.1 with
               | none => ae.2
               | some sfx => pyJoin ([ve.1] ++ sfx)))))))).filter
    (fun ve => !(ve.1 == "Minimal"))

/-- `post_processing_images_json_metadata` of `post_actions.py`: every image
path is replaced by `isos/<arch>/<basename>`; no variant is ever removed
from this manifest. -/
def postProcessingImagesJsonMetadata (m : ImagesManifest) : ImagesManifest :=
  m.map (fun ve =>
    (ve.1, ve.2.map (fun ae =>
      (ae.1, ae.2.map (fun img =>
        { img with path := pyJoin (["isos", ae.1, pyBaseName img.path]) })))))

/-- The state touched by the end of `cli_main` for one compose result: the
compose filesystem (directories, relative to the `compose` root) and the
three parsed manifest documents. -/
structure ComposeState where
  fsDirs : List (List String)
  composeinfo : ComposeInfoManifest
  rpms : RpmsManifest
  images : ImagesManifest
deriving DecidableEq

/-- The `for repo in args.not_needed_repos` loop of `cli_main` (lines
782-790): each designated variant's directory is `rmtree`d when it exists. -/
def removeNotNeededRepos (notNeeded : List String) (dirs : List (List String)) :
    List (List String) :=
  notNeeded.foldl (fun d r => if [r] ∈ d then d.filter (fun q => !(isUnder [r] q)) else d) dirs

/-- The tail of `cli_main` for one compose result (lines 746-790), sliced to
the effects on the manifests and on the designated variants' subtrees: the
three manifest rewriters run once per architecture, and afterwards every
repo in `--not-needed-repos` has its directory removed from the compose
filesystem. -/
def manifestsAndCleanupStage (notNeeded : List String) (st : ComposeState) : ComposeState :=
  { fsDirs := removeNotNeededRepos notNeeded st.fsDirs,
    composeinfo := postProcessingComposeInfoJsonMetadata st.composeinfo,
    rpms := postProcessingRpmsJsonMetadata st.rpms,
    images := postProcessingImagesJsonMetadata st.images }

/-- Concrete compose state used to exhibit the behaviour of the cleanup
stage on a variant named `Foo` designated as not needed. -/
def exampleStateFoo : ComposeState :=
  { fsDirs := [["Foo"], ["Foo", "x86_64"], ["BaseOS"]],
    composeinfo := [("Foo", [("os", [("x86_64", ["Foo", "x86_64", "os"])])]),
                    ("BaseOS", [("os", [("x86_64", ["BaseOS", "x86_64", "os"])])])],
    rpms := [("Foo", [("x86_64", [("pkg-1-1.src", [("pkg-1-1.x86_64",
              RpmArtifact.mk ["x86_64", "os", "Packages", "p", "pkg-1-1.x86_64.rpm"]
                "binary" "")])])]),
             ("BaseOS", [])],
    images := [("Foo", [("x86_64",
                 [ImageEntry.mk ["Foo", "x86_64", "iso", "Foo.iso"] ""])]),
               ("BaseOS", [])] }

/-- A per-variant `iso` directory holding only its CHECKSUM file: the state
`move_iso_and_its_artifacts_to_isos_arch_folder` is given in the simplest
compose layout. -/
def exampleIsoFS : FS6 :=
  { dirs := [["AppStream", "x86_64", "iso"]],
    files := [(["AppStream", "x86_64", "iso", "CHECKSUM"], "abc AlmaLinux.iso")] }

/-- A per-variant `iso` directory holding one ISO image and its CHECKSUM. -/
def exampleIsoFS2 : FS6 :=
  { dirs := [["AppStream", "x86_64", "iso"]],
    files := [(["AppStream", "x86_64", "iso", "AlmaLinux.iso"], "ISO"),
              (["AppStream", "x86_64", "iso", "CHECKSUM"], "abc AlmaLinux.iso")] }

/-- Two variants, each with its own `iso/CHECKSUM` file, before ISO
collection runs for either. -/
def exampleIsoFS3 : FS6 :=
  { dirs := [["AppStream", "x86_64", "iso"], ["BaseOS", "x86_64", "iso"]],
    files := [(["AppStream", "x86_64", "iso", "CHECKSUM"], "a\n"),
              (["BaseOS", "x86_64", "iso", "CHECKSUM"], "b\n")] }

/-- A concrete `os` tree with one package file and one repodata file, used
to exercise the kickstart duplication. -/
def exampleKickstartFS : FSI :=
  { dirs := [["BaseOS"], ["BaseOS", "x86_64"], ["BaseOS", "x86_64", "os"],
             ["BaseOS", "x86_64", "os", "repodata"]],
    files := [(["BaseOS", "x86_64", "os", "f1.rpm"], 0),
              (["BaseOS", "x86_64", "os", "repodata", "repomd.xml"], 1)],
    next := 2 }

/-- A concrete source-package artifact entry as it appears in `rpms.json`
before rewriting. -/
def exampleRpmArtifact : RpmArtifact :=
  RpmArtifact.mk ["source", "tree", "Packages", "p", "pkg-1.src.rpm"]
    "source_packages" "sigkey"

/-- A one-entry rpms manifest around `exampleRpmArtifact`. -/
def exampleRpmsManifest : RpmsManifest :=
  [("BaseOS", [("x86_64", [("pkg-1.src", [("pkg-1.src.rpm", exampleRpmArtifact)])])])]

/-- A small concrete `.treeinfo` in the shape pungi writes: `general` and
`tree` sections plus unrelated sections and keys. -/
def exampleTreeinfoCfg : TreeinfoConfig :=
  [("general", [("name", "AlmaLinux"), ("timestamp", "1")]),
   ("tree", [("arch", "x86_64"), ("build_timestamp", "1")]),
   ("stage2", [("mainimage", "images/install.img")])]

theorem isUnder_refl (p : List String) : isUnder p p = true := by
  induction p with
  | nil => rfl
  | cons a p ih => simp [isUnder, ih]

theorem isUnder_append (p t : List String) : isUnder p (p ++ t) = true := by
  induction p with
  | nil => rfl
  | cons a p ih => simp [isUnder, ih]

theorem isUnder_cancel (x p q : List String) :
    isUnder (x ++ p) (x ++ q) = isUnder p q := by
  induction x with
  | nil => rfl
  | cons a x ih => simp [isUnder, ih]

theorem isUnder_iff (p q : List String) : isUnder p q = true ↔ ∃ t, q = p ++ t := by
  induction p generalizing q with
  | nil => simp [isUnder]
  | cons a p ih =>
    cases q with
    | nil => simp [isUnder]
    | cons b q =>
      simp only [isUnder, Bool.and_eq_true, beq_iff_eq, ih]
      constructor
      · rintro ⟨rfl, t, rfl⟩; exact ⟨t, rfl⟩
      · rintro ⟨t, ht⟩
        cases ht
        exact ⟨rfl, t, rfl⟩

theorem isUnder_two (x : List String) (r a b : String) (p q : List String) (h : a ≠ b) :
    isUnder (x ++ r :: a :: p) (x ++ r :: b :: q) = false := by
  induction x with
  | nil => simp [isUnder, h]
  | cons y x ih => simp [isUnder, ih]

theorem mem_ancestors (q p : List String) : q ∈ ancestors p ↔ isUnder q p = true := by
  induction p generalizing q with
  | nil =>
    cases q with
    | nil => simp [ancestors, isUnder]
    | cons b q => simp [ancestors, isUnder]
  | cons a p ih =>
    cases q with
    | nil => simp [ancestors, isUnder]
    | cons b q =>
      simp only [ancestors, List.mem_cons, List.mem_map, isUnder, Bool.and_eq_true,
        beq_iff_eq, ih]
      constructor
      · rintro (h | ⟨q', hq', heq⟩)
        · exact absurd h (by simp)
        · cases heq
          exact ⟨rfl, hq'⟩
      · rintro ⟨rfl, hq⟩
        exact Or.inr ⟨q, hq, rfl⟩

theorem src_not_mem_moveSources (latest : List String) (r : String)
    (fs : List (List String)) :
    latest ++ [r, "source"] ∉ moveSourcesFolderToRightPlace latest r fs := by
  by_cases h : latest ++ [r, "source"] ∈ fs
  · simp only [moveSourcesFolderToRightPlace, if_pos h]
    intro hmem
    have := (List.mem_filter.1 hmem).2
    simp [isUnder_refl] at this
  · simp only [moveSourcesFolderToRightPlace, if_neg h]
    exact h

theorem srcS_not_mem_moveDebug (latest : List String) (r a : String)
    (fs : List (List String)) (h : latest ++ [r, "source"] ∉ fs) :
    latest ++ [r, "source"] ∉ moveDebugFolderToRightPlace latest r a fs := by
  by_cases hg : latest ++ [r, a, "debug"] ∈ fs
  · simp only [moveDebugFolderToRightPlace, if_pos hg]
    intro hmem
    have h1 := (List.mem_filter.1 hmem).1
    rcases List.mem_append.1 h1 with h2 | h2
    · have h3 := (List.mem_filter.1 h2).1
      rcases List.mem_append.1 h3 with h4 | h4
      · have h5 := (mem_ancestors _ _).1 h4
        rw [show latest ++ [r, "source"] = latest ++ r :: "source" :: [] from rfl,
          show latest ++ [r, "debug"] = latest ++ r :: "debug" :: [] from rfl,
          isUnder_two latest r "source" "debug" [] [] (by decide)] at h5
        exact absurd h5 (by decide)
      · exact h h4
    · rcases List.mem_map.1 h2 with ⟨t, _, ht⟩
      have hl := congrArg List.length ht
      simp only [List.length_append, List.length_cons, List.length_nil] at hl
      omega
  · simp only [moveDebugFolderToRightPlace, if_neg hg]
    exact h

theorem srcD_not_mem_moveDebug (latest : List String) (r a : String)
    (fs : List (List String)) :
    latest ++ [r, a, "debug"] ∉ moveDebugFolderToRightPlace latest r a fs := by
  by_cases h : latest ++ [r, a, "debug"] ∈ fs
  · simp only [moveDebugFolderToRightPlace, if_pos h]
    intro hmem
    have := (List.mem_filter.1 hmem).2
    simp [isUnder_refl] at this
  · simp only [moveDebugFolderToRightPlace, if_neg h]
    exact h

/-- Claim C4: both tree-reorganization operations leave the filesystem
unchanged when their source path (`<variant>/source` resp.
`<variant>/<arch>/debug`) does not exist, and running the reorganizer a
second time on an already-reorganized tree changes nothing. -/
theorem claim_C4 (latest : List String) (repoName arch : String)
    (fs : List (List String)) :
    ((latest ++ [repoName, "source"]) ∉ fs →
      moveSourcesFolderToRightPlace latest repoName fs = fs) ∧
    ((latest ++ [repoName, arch, "debug"]) ∉ fs →
      moveDebugFolderToRightPlace latest repoName arch fs = fs) ∧
    treeReorganize latest repoName arch (treeReorganize latest repoName arch fs) =
      treeReorganize latest repoName arch fs := by
  refine ⟨fun h => by simp [moveSourcesFolderToRightPlace, h],
    fun h => by simp [moveDebugFolderToRightPlace, h], ?_⟩
  have h1 : latest ++ [repoName, "source"] ∉
      moveSourcesFolderToRightPlace latest repoName fs :=
    src_not_mem_moveSources latest repoName fs
  have h2 : latest ++ [repoName, "source"] ∉ treeReorganize latest repoName arch fs :=
    srcS_not_mem_moveDebug latest repoName arch _ h1
  have h3 : latest ++ [repoName, arch, "debug"] ∉ treeReorganize latest repoName arch fs :=
    srcD_not_mem_moveDebug latest repoName arch _
  show moveDebugFolderToRightPlace latest repoName arch
      (moveSourcesFolderToRightPlace latest repoName (treeReorganize latest repoName arch fs)) =
    treeReorganize latest repoName arch fs
  rw [show moveSourcesFolderToRightPlace latest repoName
      (treeReorganize latest repoName arch fs) = treeReorganize latest repoName arch fs by
    simp [moveSourcesFolderToRightPlace, h2]]
  simp [moveDebugFolderToRightPlace, h3]

/-- Witness for C4 at concrete inputs: a tree without the `source` and
`debug` wrappers is untouched, and reorganizing an already reorganized
concrete tree again is the identity. -/
theorem claim_C4_witness :
    ((["AppStream", "source"] : List String) ∉ ([["AppStream"]] : List (List String)) ∧
      moveSourcesFolderToRightPlace [] "AppStream" [["AppStream"]] = [["AppStream"]]) ∧
    treeReorganize [] "BaseOS" "x86_64"
        (treeReorganize [] "BaseOS" "x86_64"
          [["BaseOS"], ["BaseOS", "source"], ["BaseOS", "source", "tree"],
           ["BaseOS", "source", "tree", "Packages"], ["BaseOS", "x86_64", "debug"],
           ["BaseOS", "x86_64", "debug", "tree"]]) =
      treeReorganize [] "BaseOS" "x86_64"
        [["BaseOS"], ["BaseOS", "source"], ["BaseOS", "source", "tree"],
         ["BaseOS", "source", "tree", "Packages"], ["BaseOS", "x86_64", "debug"],
         ["BaseOS", "x86_64", "debug", "tree"]] :=
  ⟨⟨by decide, (claim_C4 [] "AppStream" "x86_64" [["AppStream"]]).1 (by decide)⟩,
    (claim_C4 [] "BaseOS" "x86_64" _).2.2⟩

/-- Claim C3: the promotion step renames the directory behind the `latest`
symlink to `<timestamp>-<original-name>` and repoints the symlink exactly
when the target's name starts with the in-progress prefix
`last_compose_dir`; any other target (e.g. `stable-foo`) leaves the whole
state unchanged. -/
theorem claim_C3 (ts : Nat) (st : LatestLink) (h : st.target ∈ st.dirNames) :
    (strStartsW st.target "last_compose_dir" = true →
      renameLatestDir ts st =
        { target := toString ts ++ "-" ++ st.target,
          dirNames := (toString ts ++ "-" ++ st.target) :: st.dirNames.erase st.target }) ∧
    (strStartsW st.target "last_compose_dir" = false → renameLatestDir ts st = st) := by
  constructor
  · intro hs
    have hc : st.dirNames.contains st.target = true := List.elem_eq_true_of_mem h
    simp only [renameLatestDir, hs, hc, Bool.not_true, Bool.false_eq_true, if_false]
  · intro hs
    simp [renameLatestDir, hs]

/-- Witness for C3: an in-progress directory `last_compose_dir-x` is renamed
and repointed at time 7, while a directory named `stable-foo` is left
completely unchanged. -/
theorem claim_C3_witness :
    ("last_compose_dir-x" : String) ∈ ["last_compose_dir-x", "stable-foo"] ∧
    renameLatestDir 7 ⟨"last_compose_dir-x", ["last_compose_dir-x", "stable-foo"]⟩ =
      ⟨"7-last_compose_dir-x", ["7-last_compose_dir-x", "stable-foo"]⟩ ∧
    renameLatestDir 7 ⟨"stable-foo", ["stable-foo", "last_compose_dir-x"]⟩ =
      ⟨"stable-foo", ["stable-foo", "last_compose_dir-x"]⟩ :=
  ⟨by decide,
    ((claim_C3 7 ⟨"last_compose_dir-x", ["last_compose_dir-x", "stable-foo"]⟩
      (by decide)).1 (by decide)).trans (by decide),
    (claim_C3 7 ⟨"stable-foo", ["stable-foo", "last_compose_dir-x"]⟩
      (by decide)).2 (by decide)⟩

/-- Claim C7 counterexample: when the destination `os` tree does not exist,
`copy_updateinfo_from_platform_repos` returns before the glob loop, so
nothing is copied but — contrary to the claim — no warning is emitted (the
warning is only logged when the loop over glob matches falls through). -/
theorem claim_C7_counterexample :
    copyUpdateinfoFromPlatformRepos ⟨false, ["updateinfo.xml.gz"], []⟩ = ([], false) := by
  decide

/-- Claim C7 (amended): a missing destination `os` tree makes the operation
a silent no-op (no warning); the warning is emitted exactly when the `os`
tree exists and no file matches the platform-repository naming scheme; and
at most one updateinfo file is ever copied and registered per destination —
only the first glob match is acted on, and nothing is copied when the
destination file already exists. -/
theorem claim_C7_amended (st : UpdState) :
    (st.osTreeOk = false → copyUpdateinfoFromPlatformRepos st = ([], false)) ∧
    (st.osTreeOk = true → st.globMatches = [] →
      copyUpdateinfoFromPlatformRepos st = ([], true)) ∧
    (copyUpdateinfoFromPlatformRepos st).1.length ≤ 1 ∧
    (∀ m ms, st.osTreeOk = true → st.globMatches = m :: ms → m ∈ st.dstFiles →
      copyUpdateinfoFromPlatformRepos st = ([], false)) ∧
    (∀ m ms, st.osTreeOk = true → st.globMatches = m :: ms → m ∉ st.dstFiles →
      copyUpdateinfoFromPlatformRepos st = ([m], false)) := by
  refine ⟨?_, ?_, ?_, ?_, ?_⟩
  · intro h
    simp [copyUpdateinfoFromPlatformRepos, h]
  · intro h1 h2
    simp [copyUpdateinfoFromPlatformRepos, copyUpdateinfoLoop, h1, h2]
  · obtain ⟨ok, gm, df⟩ := st
    cases ok with
    | false => simp [copyUpdateinfoFromPlatformRepos]
    | true =>
      cases gm with
      | nil => simp [copyUpdateinfoFromPlatformRepos, copyUpdateinfoLoop]
      | cons m ms =>
        by_cases hd : m ∈ df
        · simp [copyUpdateinfoFromPlatformRepos, copyUpdateinfoLoop, hd]
        · simp [copyUpdateinfoFromPlatformRepos, copyUpdateinfoLoop, hd]
  · intro m ms h1 h2 h3
    simp [copyUpdateinfoFromPlatformRepos, copyUpdateinfoLoop, h1, h2, h3]
  · intro m ms h1 h2 h3
    simp [copyUpdateinfoFromPlatformRepos, copyUpdateinfoLoop, h1, h2, h3]

/-- Witness for C7 (amended): with an existing `os` tree, one glob match and
an empty destination, exactly that one file is copied and registered and no
warning is logged. -/
theorem claim_C7_witness :
    copyUpdateinfoFromPlatformRepos ⟨true, ["updateinfo.xml.gz"], []⟩ =
      (["updateinfo.xml.gz"], false) :=
  (claim_C7_amended ⟨true, ["updateinfo.xml.gz"], []⟩).2.2.2.2
    "updateinfo.xml.gz" [] rfl rfl (by decide)

theorem find_map_replace_same (key val : String) (kvs : List (String × String))
    (h : kvs.any (fun kv => kv.1 == key) = true) :
    (kvs.map (fun kv => if kv.1 = key then (key, val) else kv)).find?
      (fun kv => kv.1 == key) = some (key, val) := by
  induction kvs with
  | nil => simp at h
  | cons kv rest ih =>
    by_cases hk : kv.1 = key
    · have hb : ((key, val).1 == key) = true := by simp
      simp only [List.map_cons, if_pos hk, List.find?_cons, hb]
    · have hb : (kv.1 == key) = false := by simp [hk]
      simp only [List.map_cons, if_neg hk, List.find?_cons, hb]
      apply ih
      simp only [List.any_cons, Bool.or_eq_true, beq_iff_eq] at h
      rcases h with h | h
      · exact absurd h hk
      · exact h

theorem find_map_replace_ne (key val k : String) (h : k ≠ key)
    (kvs : List (String × String)) :
    (kvs.map (fun kv => if kv.1 = key then (key, val) else kv)).find?
      (fun kv => kv.1 == k) = kvs.find? (fun kv => kv.1 == k) := by
  induction kvs with
  | nil => rfl
  | cons kv rest ih =>
    by_cases hk : kv.1 = key
    · have hb1 : ((key, val).1 == k) = false := by simp [Ne.symm h]
      have hb2 : (kv.1 == k) = false := by simp [hk, Ne.symm h]
      simp only [List.map_cons, if_pos hk, List.find?_cons, hb1, hb2, ih]
    · by_cases hp : kv.1 = k
      · have hb : (kv.1 == k) = true := by simp [hp]
        simp only [List.map_cons, if_neg hk, List.find?_cons, hb]
      · have hb : (kv.1 == k) = false := by simp [hp]
        simp only [List.map_cons, if_neg hk, List.find?_cons, hb, ih]

theorem find_append_single_same (key val : String) (kvs : List (String × String))
    (h : kvs.any (fun kv => kv.1 == key) = false) :
    (kvs ++ [(key, val)]).find? (fun kv => kv.1 == key) = some (key, val) := by
  induction kvs with
  | nil =>
    have hb : ((key, val).1 == key) = true := by simp
    simp only [List.nil_append, List.find?_cons, hb]
  | cons kv rest ih =>
    have h1 : (kv.1 == key) = false :=
      Bool.eq_false_iff.mpr (List.any_eq_false.mp h kv (by simp))
    have h2 : rest.any (fun kv => kv.1 == key) = false :=
      List.any_eq_false.mpr (fun x hx => List.any_eq_false.mp h x (by simp [hx]))
    simp only [List.cons_append, List.find?_cons, h1]
    exact ih h2

theorem find_append_single_ne (key val k : String) (h : k ≠ key)
    (kvs : List (String × String)) :
    (kvs ++ [(key, val)]).find? (fun kv => kv.1 == k) = kvs.find? (fun kv => kv.1 == k) := by
  rw [List.find?_append]
  have hb : ((key, val).1 == k) = false := by simp [Ne.symm h]
  have e : ([(key, val)].find? (fun kv => kv.1 == k)) = none := by
    simp only [List.find?_cons, hb, List.find?_nil]
  rw [e]
  cases kvs.find? (fun kv => kv.1 == k) <;> rfl

theorem find_setKeyVal_same (kvs : List (String × String)) (key val : String) :
    (setKeyVal kvs key val).find? (fun kv => kv.1 == key) = some (key, val) := by
  unfold setKeyVal
  by_cases h : kvs.any (fun kv => kv.1 == key) = true
  · rw [if_pos h]
    exact find_map_replace_same key val kvs h
  · rw [if_neg h]
    exact find_append_single_same key val kvs (Bool.eq_false_iff.mpr h)

theorem find_setKeyVal_ne (kvs : List (String × String)) (key val k : String) (h : k ≠ key) :
    (setKeyVal kvs key val).find? (fun kv => kv.1 == k) = kvs.find? (fun kv => kv.1 == k) := by
  unfold setKeyVal
  by_cases ha : kvs.any (fun kv => kv.1 == key) = true
  · rw [if_pos ha]
    exact find_map_replace_ne key val k h kvs
  · rw [if_neg ha]
    exact find_append_single_ne key val k h kvs

theorem getOption_setOption_same (cfg : TreeinfoConfig) (sec key val : String)
    (h : hasSection cfg sec = true) :
    getOption (setOption cfg sec key val) sec key = some val := by
  induction cfg with
  | nil => simp [hasSection] at h
  | cons c rest ih =>
    by_cases hc : c.1 = sec
    · have e : setOption (c :: rest) sec key val =
          (c.1, setKeyVal c.2 key val) :: setOption rest sec key val := by
        simp [setOption, if_pos hc]
      have hb : ((c.1, setKeyVal c.2 key val).1 == sec) = true := by simp [hc]
      rw [e]
      simp only [getOption, List.find?_cons, hb]
      simp [find_setKeyVal_same c.2 key val]
    · have e : setOption (c :: rest) sec key val = c :: setOption rest sec key val := by
        simp [setOption, if_neg hc]
      have hb : (c.1 == sec) = false := by simp [hc]
      have h' : hasSection rest sec = true := by
        simp only [hasSection, List.any_cons, Bool.or_eq_true, beq_iff_eq] at h
        rcases h with h | h
        · exact absurd h hc
        · simpa [hasSection] using h
      rw [e]
      simp only [getOption, List.find?_cons, hb]
      simpa [getOption] using ih h'

theorem getOption_setOption_ne (cfg : TreeinfoConfig) (sec key val s k : String)
    (h : s ≠ sec ∨ k ≠ key) :
    getOption (setOption cfg sec key val) s k = getOption cfg s k := by
  induction cfg with
  | nil => rfl
  | cons c rest ih =>
    by_cases hc : c.1 = sec
    · have e : setOption (c :: rest) sec key val =
          (c.1, setKeyVal c.2 key val) :: setOption rest sec key val := by
        simp [setOption, if_pos hc]
      rw [e]
      by_cases hp : c.1 = s
      · have hk : k ≠ key := by
          rcases h with h | h
          · exact absurd (hp.symm.trans hc) h
          · exact h
        have hb : ((c.1, setKeyVal c.2 key val).1 == s) = true := by simp [hp]
        have hb2 : (c.1 == s) = true := by simp [hp]
        simp only [getOption, List.find?_cons, hb, hb2]
        simp [find_setKeyVal_ne c.2 key val k hk]
      · have hb : ((c.1, setKeyVal c.2 key val).1 == s) = false := by simp [hp]
        have hb2 : (c.1 == s) = false := by simp [hp]
        simp only [getOption, List.find?_cons, hb, hb2]
        simpa [getOption] using ih
    · have e : setOption (c :: rest) sec key val = c :: setOption rest sec key val := by
        simp [setOption, if_neg hc]
      rw [e]
      by_cases hp : c.1 = s
      · have hb : (c.1 == s) = true := by simp [hp]
        simp only [getOption, List.find?_cons, hb]
      · have hb : (c.1 == s) = false := by simp [hp]
        simp only [getOption, List.find?_cons, hb]
        simpa [getOption] using ih

theorem sections_setOption (cfg : TreeinfoConfig) (sec key val : String) :
    (setOption cfg sec key val).map Prod.fst = cfg.map Prod.fst := by
  unfold setOption
  rw [List.map_map]
  apply List.map_congr_left
  intro x _
  by_cases hx : x.1 = sec <;> simp [hx]

theorem hasSection_setOption (cfg : TreeinfoConfig) (sec key val t : String) :
    hasSection (setOption cfg sec key val) t = hasSection cfg t := by
  induction cfg with
  | nil => rfl
  | cons c rest ih =>
    by_cases hc : c.1 = sec
    · have e : setOption (c :: rest) sec key val =
          (c.1, setKeyVal c.2 key val) :: setOption rest sec key val := by
        simp [setOption, if_pos hc]
      rw [e]
      simp only [hasSection, List.any_cons]
      simp only [hasSection] at ih
      rw [ih]
    · have e : setOption (c :: rest) sec key val = c :: setOption rest sec key val := by
        simp [setOption, if_neg hc]
      rw [e]
      simp only [hasSection, List.any_cons]
      simp only [hasSection] at ih
      rw [ih]

/-- Claim C10: one build timestamp is computed once per compose result and
handed to every `.treeinfo` update; for each `.treeinfo` file found, the
update sets exactly `general.timestamp` and `tree.build_timestamp` to that
same stringified value, leaving every other section and key unchanged, and
a missing `.treeinfo` path changes nothing. -/
theorem claim_C10 (ts : Nat) (files : List (Option TreeinfoConfig))
    (oc : Option TreeinfoConfig) (hmem : oc ∈ files) :
    updateTimestampInTreeinfo ts oc ∈ processTreeinfosOnce ts files ∧
    (oc = none → updateTimestampInTreeinfo ts oc = Except.ok none) ∧
    (∀ cfg, oc = some cfg → hasSection cfg "general" = true →
      hasSection cfg "tree" = true →
      ∃ cfg', updateTimestampInTreeinfo ts oc = Except.ok (some cfg') ∧
        getOption cfg' "general" "timestamp" = some (toString ts) ∧
        getOption cfg' "tree" "build_timestamp" = some (toString ts) ∧
        cfg'.map Prod.fst = cfg.map Prod.fst ∧
        (∀ sec key, ¬(sec = "general" ∧ key = "timestamp") →
          ¬(sec = "tree" ∧ key = "build_timestamp") →
          getOption cfg' sec key = getOption cfg sec key)) := by
  refine ⟨List.mem_map_of_mem _ hmem, ?_, ?_⟩
  · rintro rfl
    rfl
  · rintro cfg rfl hG hT
    refine ⟨setOption (setOption cfg "general" "timestamp" (toString ts)) "tree"
      "build_timestamp" (toString ts), ?_, ?_, ?_, ?_, ?_⟩
    · simp [updateTimestampInTreeinfo, hG, hT]
    · rw [getOption_setOption_ne _ _ _ _ _ _ (Or.inl (by decide))]
      exact getOption_setOption_same cfg "general" "timestamp" (toString ts) hG
    · apply getOption_setOption_same
      rw [hasSection_setOption]
      exact hT
    · rw [sections_setOption, sections_setOption]
    · intro sec key h1 h2
      rw [getOption_setOption_ne _ _ _ _ _ _ (by
        rcases Decidable.em (sec = "tree") with hs | hs
        · exact Or.inr (fun hk => h2 ⟨hs, hk⟩)
        · exact Or.inl hs)]
      rw [getOption_setOption_ne _ _ _ _ _ _ (by
        rcases Decidable.em (sec = "general") with hs | hs
        · exact Or.inr (fun hk => h1 ⟨hs, hk⟩)
        · exact Or.inl hs)]

/-- Witness for C10 on a concrete `.treeinfo`: both timestamp keys are set
to the same value 42 while the other sections and keys are untouched. -/
theorem claim_C10_witness :
    ∃ cfg', updateTimestampInTreeinfo 42 (some exampleTreeinfoCfg) =
        Except.ok (some cfg') ∧
      getOption cfg' "general" "timestamp" = some (toString 42) ∧
      getOption cfg' "tree" "build_timestamp" = some (toString 42) ∧
      cfg'.map Prod.fst = exampleTreeinfoCfg.map Prod.fst ∧
      (∀ sec key, ¬(sec = "general" ∧ key = "timestamp") →
        ¬(sec = "tree" ∧ key = "build_timestamp") →
        getOption cfg' sec key = getOption exampleTreeinfoCfg sec key) :=
  (claim_C10 42 [some exampleTreeinfoCfg] (some exampleTreeinfoCfg)
    (by simp)).2.2 exampleTreeinfoCfg rfl (by decide) (by decide)

theorem pathDictionary_no_empty (c arch : String) (sfx : List String)
    (h : pathDictionary c arch = some sfx) (ha : arch ≠ "") : "" ∉ sfx := by
  unfold pathDictionary at h
  split_ifs at h <;>
    first
      | (simp only [Option.some.injEq] at h
         subst h
         simp [Ne.symm ha])
      | simp at h

theorem pyJoin_eq_self (parts : List String) (h : ∀ s ∈ parts, s ≠ "") :
    pyJoin parts = parts := by
  unfold pyJoin
  apply List.filter_eq_self.mpr
  intro a ha
  simp [h a ha]

theorem pyBaseName_ne_empty (p : List String) (h2 : 2 ≤ p.length) (hne : "" ∉ p) :
    pyBaseName p ≠ "" := by
  have hnil : p ≠ [] := by
    intro h
    subst h
    simp at h2
  unfold pyBaseName
  rw [List.getLast?_eq_getLast p hnil]
  intro hh
  simp only [Option.getD_some] at hh
  exact hne (hh ▸ List.getLast_mem hnil)

theorem pyParentDirName_ne_empty (p : List String) (h2 : 2 ≤ p.length) (hne : "" ∉ p) :
    pyParentDirName p ≠ "" := by
  have hlen : p.dropLast.length = p.length - 1 := List.length_dropLast p
  have hnil : p.dropLast ≠ [] := by
    intro h
    rw [h] at hlen
    simp at hlen
    omega
  unfold pyParentDirName
  rw [List.getLast?_eq_getLast _ hnil]
  intro hh
  simp only [Option.getD_some] at hh
  exact hne ((List.dropLast_sublist p).subset (hh ▸ List.getLast_mem hnil))

/-- Claim C2: for every artifact entry of the rpms manifest in a surviving
variant whose declared category has a canonical mapping, the rpms rewriter
replaces the entry's path with
`<variant>/<mapped-subpath-with-arch-substituted>/<original-parent-dir>/<original-filename>`.
The architecture substituted is the manifest key the entry sits under. -/
theorem claim_C2 (m : RpmsManifest) (v : String)
    (archs : List (String × List (String × List (String × RpmArtifact))))
    (ar : String) (srpms : List (String × List (String × RpmArtifact)))
    (s : String) (arts : List (String × RpmArtifact)) (an : String) (a : RpmArtifact)
    (sfx : List String)
    (hv : (v, archs) ∈ m) (hmin : v ≠ "Minimal") (har : (ar, srpms) ∈ archs)
    (hsr : (s, arts) ∈ srpms) (han : (an, a) ∈ arts)
    (hcat : pathDictionary a.category ar = some sfx)
    (hlen : 2 ≤ a.path.length) (hpne : "" ∉ a.path) (hvne : v ≠ "") (harne : ar ≠ "") :
    ∃ archs', (v, archs') ∈ postProcessingRpmsJsonMetadata m ∧
      ∃ srpms', (ar, srpms') ∈ archs' ∧
        ∃ arts', (s, arts') ∈ srpms' ∧
          (an, { a with path :=
            [v] ++ sfx ++ [pyParentDirName a.path, pyBaseName a.path] }) ∈ arts' := by
  have hrw : rewriteRpmArtifact v ar a =
      { a with path := [v] ++ sfx ++ [pyParentDirName a.path, pyBaseName a.path] } := by
    simp only [rewriteRpmArtifact, hcat]
    congr 1
    apply pyJoin_eq_self
    intro x hx
    rcases List.mem_append.1 hx with hx1 | hx1
    · rcases List.mem_append.1 hx1 with hx2 | hx2
      · rcases List.mem_singleton.1 hx2 with rfl
        exact hvne
      · intro hxe
        exact pathDictionary_no_empty a.category ar sfx hcat harne (hxe ▸ hx2)
    · rcases List.mem_cons.1 hx1 with hx2 | hx2
      · subst hx2
        exact pyParentDirName_ne_empty a.path hlen hpne
      · rcases List.mem_singleton.1 hx2 with rfl
        exact pyBaseName_ne_empty a.path hlen hpne
  refine ⟨archs.map (fun ae => (ae.1, ae.2.map (fun se => (se.1, se.2.map (fun arte =>
    (arte.1, rewriteRpmArtifact v ae.1 arte.2)))))), ?_, ?_⟩
  · unfold postProcessingRpmsJsonMetadata
    apply List.mem_filter.mpr
    refine ⟨?_, by simp [hmin]⟩
    have := List.mem_map_of_mem (fun ve =>
      if ve.1 = "Minimal" then ve
      else (ve.1, ve.2.map (fun ae => (ae.1, ae.2.map (fun se => (se.1, se.2.map (fun arte =>
        (arte.1, rewriteRpmArtifact ve.1 ae.1 arte.2)))))))) hv
    simpa [hmin] using this
  refine ⟨srpms.map (fun se => (se.1, se.2.map (fun arte =>
    (arte.1, rewriteRpmArtifact v ar arte.2)))), List.mem_map_of_mem _ har, ?_⟩
  refine ⟨arts.map (fun arte => (arte.1, rewriteRpmArtifact v ar arte.2)),
    List.mem_map_of_mem _ hsr, ?_⟩
  have := List.mem_map_of_mem (fun arte => (arte.1, rewriteRpmArtifact v ar arte.2)) han
  simpa only [hrw] using this

/-- Witness for C2: a concrete source package entry with category
`source_packages` is rewritten to
`BaseOS/Source/Packages/<parent-dir>/<file name>`. -/
theorem claim_C2_witness :
    ∃ archs', ("BaseOS", archs') ∈ postProcessingRpmsJsonMetadata exampleRpmsManifest ∧
      ∃ srpms', ("x86_64", srpms') ∈ archs' ∧
        ∃ arts', ("pkg-1.src", arts') ∈ srpms' ∧
          ("pkg-1.src.rpm",
            { exampleRpmArtifact with path :=
                ["BaseOS"] ++ ["Source", "Packages"] ++
                  [pyParentDirName exampleRpmArtifact.path,
                   pyBaseName exampleRpmArtifact.path] })
            ∈ arts' :=
  claim_C2 exampleRpmsManifest "BaseOS"
    [("x86_64", [("pkg-1.src", [("pkg-1.src.rpm", exampleRpmArtifact)])])]
    "x86_64" [("pkg-1.src", [("pkg-1.src.rpm", exampleRpmArtifact)])]
    "pkg-1.src" [("pkg-1.src.rpm", exampleRpmArtifact)]
    "pkg-1.src.rpm" exampleRpmArtifact ["Source", "Packages"]
    (by decide) (by decide) (by decide) (by decide) (by decide) (by decide) (by decide)
    (by decide) (by decide) (by decide)

/-- Claim C9: manifest entries whose category (rpms manifest) or path-type
(composeinfo manifest) has no entry in `PATH_DICTIONARY` are passed through
with their path unchanged — never rewritten, never an error. -/
theorem claim_C9 :
    (∀ (m : RpmsManifest) (v : String)
      (archs : List (String × List (String × List (String × RpmArtifact))))
      (ar : String) (srpms : List (String × List (String × RpmArtifact)))
      (s : String) (arts : List (String × RpmArtifact)) (an : String) (a : RpmArtifact),
      (v, archs) ∈ m → v ≠ "Minimal" → (ar, srpms) ∈ archs → (s, arts) ∈ srpms →
      (an, a) ∈ arts → pathDictionary a.category ar = none →
      ∃ archs', (v, archs') ∈ postProcessingRpmsJsonMetadata m ∧
        ∃ srpms', (ar, srpms') ∈ archs' ∧
          ∃ arts', (s, arts') ∈ srpms' ∧ (an, a) ∈ arts') ∧
    (∀ (m : ComposeInfoManifest) (v : String)
      (ptypes : List (String × List (String × List String)))
      (pt : String) (archsP : List (String × List String)) (ar : String) (p : List String),
      (v, ptypes) ∈ m → v ≠ "Minimal" → (pt, archsP) ∈ ptypes → (ar, p) ∈ archsP →
      pathDictionary pt ar = none →
      ∃ ptypes', (v, ptypes') ∈ postProcessingComposeInfoJsonMetadata m ∧
        ∃ archsP', (pt, archsP') ∈ ptypes' ∧ (ar, p) ∈ archsP') := by
  constructor
  · intro m v archs ar srpms s arts an a hv hmin har hsr han hcat
    have hrw : rewriteRpmArtifact v ar a = a := by
      simp only [rewriteRpmArtifact, hcat]
    refine ⟨archs.map (fun ae => (ae.1, ae.2.map (fun se => (se.1, se.2.map (fun arte =>
      (arte.1, rewriteRpmArtifact v ae.1 arte.2)))))), ?_, ?_⟩
    · unfold postProcessingRpmsJsonMetadata
      apply List.mem_filter.mpr
      refine ⟨?_, by simp [hmin]⟩
      have := List.mem_map_of_mem (fun ve =>
        if ve.1 = "Minimal" then ve
        else (ve.1, ve.2.map (fun ae => (ae.1, ae.2.map (fun se => (se.1, se.2.map (fun arte =>
          (arte.1, rewriteRpmArtifact ve.1 ae.1 arte.2)))))))) hv
      simpa [hmin] using this
    refine ⟨srpms.map (fun se => (se.1, se.2.map (fun arte =>
      (arte.1, rewriteRpmArtifact v ar arte.2)))), List.mem_map_of_mem _ har, ?_⟩
    refine ⟨arts.map (fun arte => (arte.1, rewriteRpmArtifact v ar arte.2)),
      List.mem_map_of_mem _ hsr, ?_⟩
    have := List.mem_map_of_mem (fun arte => (arte.1, rewriteRpmArtifact v ar arte.2)) han
    simpa only [hrw] using this
  · intro m v ptypes pt archsP ar p hv hmin hpt har hcat
    refine ⟨ptypes.map (fun pte => (pte.1, pte.2.map (fun ae =>
      (ae.1, match pathDictionary pte.1 ae.1 with
             | none => ae.2
             | some sfx => pyJoin ([v] ++ sfx))))), ?_, ?_⟩
    · unfold postProcessingComposeInfoJsonMetadata
      apply List.mem_filter.mpr
      refine ⟨?_, by simp [hmin]⟩
      have := List.mem_map_of_mem (fun ve =>
        if ve.1 = "Minimal" then ve
        else (ve.1, ve.2.map (fun pte => (pte.1, pte.2.map (fun ae =>
          (ae.1, match pathDictionary pte.1 ae.1 with
                 | none => ae.2
                 | some sfx => pyJoin ([ve.1] ++ sfx))))))) hv
      simpa [hmin] using this
    refine ⟨archsP.map (fun ae =>
      (ae.1, match pathDictionary pt ae.1 with
             | none => ae.2
             | some sfx => pyJoin ([v] ++ sfx))), List.mem_map_of_mem _ hpt, ?_⟩
    have := List.mem_map_of_mem (fun ae =>
      (ae.1, match pathDictionary pt ae.1 with
             | none => ae.2
             | some sfx => pyJoin ([v] ++ sfx))) har
    simpa only [hcat] using this

/-- Witness for C9: an artifact with the unmapped category `binary` and a
composeinfo path-type `os` (also unmapped) survive the rewriters with their
paths untouched. -/
theorem claim_C9_witness :
    (∃ archs', ("AppStream", archs') ∈ postProcessingRpmsJsonMetadata
        [("AppStream", [("x86_64", [("pkg-1.src", [("pkg-1.x86_64.rpm",
          RpmArtifact.mk ["x86_64", "os", "Packages", "p", "pkg-1.x86_64.rpm"]
            "binary" "sigkey")])])])] ∧
      ∃ srpms', ("x86_64", srpms') ∈ archs' ∧
        ∃ arts', ("pkg-1.src", arts') ∈ srpms' ∧
          ("pkg-1.x86_64.rpm",
            RpmArtifact.mk ["x86_64", "os", "Packages", "p", "pkg-1.x86_64.rpm"]
              "binary" "sigkey") ∈ arts') ∧
    (∃ ptypes', ("AppStream", ptypes') ∈ postProcessingComposeInfoJsonMetadata
        [("AppStream", [("os", [("x86_64", ["AppStream", "x86_64", "os"])])])] ∧
      ∃ archsP', ("os", archsP') ∈ ptypes' ∧
        ("x86_64", ["AppStream", "x86_64", "os"]) ∈ archsP') :=
  ⟨claim_C9.1
      [("AppStream", [("x86_64", [("pkg-1.src", [("pkg-1.x86_64.rpm",
        RpmArtifact.mk ["x86_64", "os", "Packages", "p", "pkg-1.x86_64.rpm"]
          "binary" "sigkey")])])])]
      "AppStream"
      [("x86_64", [("pkg-1.src", [("pkg-1.x86_64.rpm",
        RpmArtifact.mk ["x86_64", "os", "Packages", "p", "pkg-1.x86_64.rpm"]
          "binary" "sigkey")])])]
      "x86_64"
      [("pkg-1.src", [("pkg-1.x86_64.rpm",
        RpmArtifact.mk ["x86_64", "os", "Packages", "p", "pkg-1.x86_64.rpm"]
          "binary" "sigkey")])]
      "pkg-1.src"
      [("pkg-1.x86_64.rpm",
        RpmArtifact.mk ["x86_64", "os", "Packages", "p", "pkg-1.x86_64.rpm"]
          "binary" "sigkey")]
      "pkg-1.x86_64.rpm"
      (RpmArtifact.mk ["x86_64", "os", "Packages", "p", "pkg-1.x86_64.rpm"]
        "binary" "sigkey")
      (by decide) (by decide) (by decide) (by decide) (by decide) (by decide),
    claim_C9.2
      [("AppStream", [("os", [("x86_64", ["AppStream", "x86_64", "os"])])])]
      "AppStream"
      [("os", [("x86_64", ["AppStream", "x86_64", "os"])])]
      "os"
      [("x86_64", ["AppStream", "x86_64", "os"])]
      "x86_64" ["AppStream", "x86_64", "os"]
      (by decide) (by decide) (by decide) (by decide) (by decide)⟩

theorem removeNotNeeded_cons (r : String) (ns : List String) (ds : List (List String)) :
    removeNotNeededRepos (r :: ns) ds =
      removeNotNeededRepos ns
        (if [r] ∈ ds then ds.filter (fun q => !(isUnder [r] q)) else ds) := rfl

theorem removeNotNeeded_subset (ns : List String) :
    ∀ (ds : List (List String)) (q : List String),
      q ∈ removeNotNeededRepos ns ds → q ∈ ds := by
  induction ns with
  | nil => exact fun ds q hq => hq
  | cons r t ih =>
    intro ds q hq
    rw [removeNotNeeded_cons] at hq
    have := ih _ q hq
    by_cases h : [r] ∈ ds
    · rw [if_pos h] at this
      exact (List.mem_filter.1 this).1
    · rwa [if_neg h] at this

theorem removeNotNeeded_allGone (ns : List String) :
    ∀ (ds : List (List String)) (r : String), r ∈ ns → [r] ∈ ds →
      ∀ q ∈ removeNotNeededRepos ns ds, isUnder [r] q = false := by
  induction ns with
  | nil => intro ds r hr; cases hr
  | cons h t ih =>
    intro ds r hr hd q hq
    rw [removeNotNeeded_cons] at hq
    by_cases hrh : r = h
    · subst hrh
      rw [if_pos hd] at hq
      have hsub := removeNotNeeded_subset t _ q hq
      have := (List.mem_filter.1 hsub).2
      simpa using this
    · have hr' : r ∈ t := by
        rcases List.mem_cons.1 hr with h1 | h1
        · exact absurd h1 hrh
        · exact h1
      have hd' : [r] ∈ (if [h] ∈ ds then ds.filter (fun q => !(isUnder [h] q)) else ds) := by
        by_cases hh : [h] ∈ ds
        · rw [if_pos hh]
          exact List.mem_filter.2 ⟨hd, by simp [isUnder, Ne.symm hrh]⟩
        · rwa [if_neg hh]
      exact ih _ r hr' hd' q hq

theorem map_fst_filter_minimal {β : Type} (l : List (String × β)) :
    ((l.filter (fun x => !(x.1 == "Minimal"))).map Prod.fst) =
      (l.map Prod.fst).filter (fun v => !(v == "Minimal")) := by
  induction l with
  | nil => rfl
  | cons x rest ih =>
    cases hp : (x.1 == "Minimal") <;> simp [List.filter_cons, hp, ih]

theorem keys_postProcessingRpms (m : RpmsManifest) :
    (postProcessingRpmsJsonMetadata m).map Prod.fst =
      (m.map Prod.fst).filter (fun v => !(v == "Minimal")) := by
  unfold postProcessingRpmsJsonMetadata
  rw [map_fst_filter_minimal]
  congr 1
  rw [List.map_map]
  apply List.map_congr_left
  intro ve _
  by_cases hv : ve.1 = "Minimal" <;> simp [hv]

theorem keys_postProcessingComposeInfo (m : ComposeInfoManifest) :
    (postProcessingComposeInfoJsonMetadata m).map Prod.fst =
      (m.map Prod.fst).filter (fun v => !(v == "Minimal")) := by
  unfold postProcessingComposeInfoJsonMetadata
  rw [map_fst_filter_minimal]
  congr 1
  rw [List.map_map]
  apply List.map_congr_left
  intro ve _
  by_cases hv : ve.1 = "Minimal" <;> simp [hv]

theorem keys_postProcessingImages (m : ImagesManifest) :
    (postProcessingImagesJsonMetadata m).map Prod.fst = m.map Prod.fst := by
  unfold postProcessingImagesJsonMetadata
  rw [List.map_map]
  apply List.map_congr_left
  intro ve _
  rfl

/-- Claim C1 counterexample: designate the variant `Foo` as not needed.
After the manifest-and-cleanup stage the `Foo` subtree is gone from the
filesystem, but `Foo` is still a variant key of the rpms, composeinfo and
images manifests — only the hardcoded name `Minimal` is ever pruned from
rpms/composeinfo, and the images rewriter never prunes anything. -/
theorem claim_C1_counterexample :
    "Foo" ∈ ((manifestsAndCleanupStage ["Foo"] exampleStateFoo).rpms.map Prod.fst) ∧
    "Foo" ∈ ((manifestsAndCleanupStage ["Foo"] exampleStateFoo).composeinfo.map Prod.fst) ∧
    "Foo" ∈ ((manifestsAndCleanupStage ["Foo"] exampleStateFoo).images.map Prod.fst) ∧
    (["Foo"] ∉ (manifestsAndCleanupStage ["Foo"] exampleStateFoo).fsDirs) := by
  decide

/-- Claim C1 (amended): after the end-of-run stage, every variant designated
not-needed has its filesystem subtree deleted (when it existed); the rpms
and composeinfo manifests drop exactly the hardcoded variant `Minimal`,
keeping every other variant; and the images manifest keeps all its variant
entries. -/
theorem claim_C1_amended (notNeeded : List String) (st : ComposeState) :
    (∀ r ∈ notNeeded, [r] ∈ st.fsDirs →
      ∀ q ∈ (manifestsAndCleanupStage notNeeded st).fsDirs, isUnder [r] q = false) ∧
    (manifestsAndCleanupStage notNeeded st).rpms.map Prod.fst =
      (st.rpms.map Prod.fst).filter (fun v => !(v == "Minimal")) ∧
    (manifestsAndCleanupStage notNeeded st).composeinfo.map Prod.fst =
      (st.composeinfo.map Prod.fst).filter (fun v => !(v == "Minimal")) ∧
    (manifestsAndCleanupStage notNeeded st).images.map Prod.fst =
      st.images.map Prod.fst := by
  refine ⟨?_, keys_postProcessingRpms st.rpms, keys_postProcessingComposeInfo st.composeinfo,
    keys_postProcessingImages st.images⟩
  intro r hr hd q hq
  exact removeNotNeeded_allGone notNeeded st.fsDirs r hr hd q hq

/-- Witness for the amended C1 on the concrete `Foo` state: the surviving
variant keys are computed explicitly and the designated directory is shown
gone through the theorem's filesystem clause. -/
theorem claim_C1_witness :
    (manifestsAndCleanupStage ["Foo"] exampleStateFoo).rpms.map Prod.fst =
      ["Foo", "BaseOS"] ∧
    (manifestsAndCleanupStage ["Foo"] exampleStateFoo).images.map Prod.fst =
      ["Foo", "BaseOS"] ∧
    ["Foo"] ∉ (manifestsAndCleanupStage ["Foo"] exampleStateFoo).fsDirs :=
  ⟨((claim_C1_amended ["Foo"] exampleStateFoo).2.1).trans (by decide),
   ((claim_C1_amended ["Foo"] exampleStateFoo).2.2.2).trans (by decide),
   fun hq => by
     simpa [isUnder_refl] using
       (claim_C1_amended ["Foo"] exampleStateFoo).1 "Foo" (by decide) (by decide) ["Foo"] hq⟩

theorem isUnder_append_ne (x : List String) (a b : String) (p q : List String) (h : a ≠ b) :
    isUnder (x ++ a :: p) (x ++ b :: q) = false := by
  induction x with
  | nil => simp [isUnder, h]
  | cons y x ih => simp [isUnder, ih]

theorem isUnder_ne_mid (x : List String) (a b : String) (t u : List String) (h : a ≠ b) :
    isUnder (x ++ [a] ++ t) (x ++ [b] ++ u) = false := by
  have e1 : x ++ [a] ++ t = x ++ a :: t := by simp
  have e2 : x ++ [b] ++ u = x ++ b :: u := by simp
  rw [e1, e2]
  exact isUnder_append_ne x a b t u h

theorem freshCopies_mem (sl : Nat) (d : List String) (l : List (List String × Nat))
    (f : List String × Nat) (hf : f ∈ l) :
    ∀ n : Nat, ∃ j, n ≤ j ∧ (d ++ f.1.drop sl, j) ∈ freshCopies sl d l n := by
  induction l with
  | nil => cases hf
  | cons g rest ih =>
    intro n
    rcases List.mem_cons.1 hf with h1 | h1
    · subst h1
      exact ⟨n, Nat.le_refl n, List.mem_cons_self _ _⟩
    · rcases ih h1 (n + 1) with ⟨j, hj, hmem⟩
      exact ⟨j, by omega, List.mem_cons_of_mem _ hmem⟩

theorem freshCopies_mem_rev (sl : Nat) (d : List String) (l : List (List String × Nat)) :
    ∀ (n : Nat) (q : List String) (j : Nat), (q, j) ∈ freshCopies sl d l n →
      ∃ f, f ∈ l ∧ q = d ++ f.1.drop sl ∧ n ≤ j := by
  induction l with
  | nil => intro n q j h; cases h
  | cons g rest ih =>
    intro n q j h
    rcases List.mem_cons.1 h with h1 | h1
    · rcases Prod.mk.injEq .. ▸ h1 with ⟨e1, e2⟩
      exact ⟨g, List.mem_cons_self _ _, e1, e2 ▸ Nat.le_refl n⟩
    · rcases ih (n + 1) q j h1 with ⟨f, hf, he, hn⟩
      exact ⟨f, List.mem_cons_of_mem _ hf, he, by omega⟩

theorem linkTree_files (src dst : List String) (fs : FSI) :
    (linkTree src dst fs).files = fs.files ++
      (fs.files.filter (fun f => isUnder src f.1)).map
        (fun f => (dst ++ f.1.drop src.length, f.2)) := rfl

theorem rmtreeI_files (p : List String) (fs : FSI) :
    (rmtreeI p fs).files = fs.files.filter (fun f => !(isUnder p f.1)) := rfl

theorem copyTreeFresh_files (src dst : List String) (fs : FSI) :
    (copyTreeFresh src dst fs).files = fs.files ++
      freshCopies src.length dst (fs.files.filter (fun f => isUnder src f.1)) fs.next := rfl

/-- Claim C5: the kickstart duplication runs only when the variant/arch `os`
tree exists and no `kickstart` tree exists yet (otherwise it changes
nothing); when it runs, every ordinary file of the duplicate outside
`repodata` is a hardlink to (same inode as) the corresponding `os` file,
while every file under the duplicate's `repodata` is an independent copy
whose inode is shared with no file of the original filesystem. -/
theorem claim_C5 (latest : List String) (repoName arch : String) (fs : FSI)
    (hwf : wfInodes fs = true) :
    (¬ ((latest ++ [repoName, arch, "os"]) ∈ fs.dirs ∧
        (latest ++ [repoName, arch, "kickstart"]) ∉ fs.dirs) →
      createKickstartFolder latest repoName arch fs = fs) ∧
    ((latest ++ [repoName, arch, "os"]) ∈ fs.dirs →
      (latest ++ [repoName, arch, "kickstart"]) ∉ fs.dirs →
      (∀ s i, (latest ++ [repoName, arch, "os"] ++ s, i) ∈ fs.files →
        isUnder ["repodata"] s = false →
        (latest ++ [repoName, arch, "kickstart"] ++ s, i) ∈
          (createKickstartFolder latest repoName arch fs).files) ∧
      (∀ s i, (latest ++ [repoName, arch, "os"] ++ ["repodata"] ++ s, i) ∈ fs.files →
        ∃ j, (latest ++ [repoName, arch, "kickstart"] ++ ["repodata"] ++ s, j) ∈
            (createKickstartFolder latest repoName arch fs).files ∧
          ∀ q i', (q, i') ∈ fs.files → i' ≠ j)) ∧
    (fs.files.all (fun f => !(isUnder (latest ++ [repoName, arch, "kickstart"]) f.1)) =
        true →
      ∀ q i, (q, i) ∈ (createKickstartFolder latest repoName arch fs).files →
        isUnder (latest ++ [repoName, arch, "kickstart"]) q = true →
        ∃ s, q = latest ++ [repoName, arch, "kickstart"] ++ s ∧
          ((isUnder ["repodata"] s = false ∧
            (latest ++ [repoName, arch, "os"] ++ s, i) ∈ fs.files) ∨
           (isUnder ["repodata"] s = true ∧
            (∃ j, (latest ++ [repoName, arch, "os"] ++ s, j) ∈ fs.files) ∧
            ∀ q' i', (q', i') ∈ fs.files → i' ≠ i))) := by
  have hwf' : ∀ f ∈ fs.files, f.2 < fs.next := by
    intro f hf
    exact of_decide_eq_true (List.all_eq_true.mp hwf f hf)
  have hkick_os : ∀ u w : List String,
      isUnder ((latest ++ [repoName, arch, "kickstart"]) ++ u)
        ((latest ++ [repoName, arch, "os"]) ++ w) = false := by
    intro u w
    have e1 : (latest ++ [repoName, arch, "kickstart"]) ++ u =
        (latest ++ [repoName, arch]) ++ ["kickstart"] ++ u := by simp
    have e2 : (latest ++ [repoName, arch, "os"]) ++ w =
        (latest ++ [repoName, arch]) ++ ["os"] ++ w := by simp
    rw [e1, e2]
    exact isUnder_ne_mid _ "kickstart" "os" _ _ (by decide)
  have hos_kick : ∀ u w : List String,
      isUnder ((latest ++ [repoName, arch, "os"]) ++ u)
        ((latest ++ [repoName, arch, "kickstart"]) ++ w) = false := by
    intro u w
    have e1 : (latest ++ [repoName, arch, "os"]) ++ u =
        (latest ++ [repoName, arch]) ++ ["os"] ++ u := by simp
    have e2 : (latest ++ [repoName, arch, "kickstart"]) ++ w =
        (latest ++ [repoName, arch]) ++ ["kickstart"] ++ w := by simp
    rw [e1, e2]
    exact isUnder_ne_mid _ "os" "kickstart" _ _ (by decide)
  refine ⟨?_, ?_, ?_⟩
  · intro h
    simp only [createKickstartFolder]
    rw [if_neg h]
  · intro hg1 hg2
    have hck : createKickstartFolder latest repoName arch fs =
        copyTreeFresh ((latest ++ [repoName, arch, "os"]) ++ ["repodata"])
          ((latest ++ [repoName, arch, "kickstart"]) ++ ["repodata"])
          (rmtreeI ((latest ++ [repoName, arch, "kickstart"]) ++ ["repodata"])
            (linkTree (latest ++ [repoName, arch, "os"])
              (latest ++ [repoName, arch, "kickstart"]) fs)) := by
      simp only [createKickstartFolder]
      rw [if_pos ⟨hg1, hg2⟩]
    constructor
    · intro s i hmem hrep
      rw [hck, copyTreeFresh_files]
      apply List.mem_append_left
      rw [rmtreeI_files]
      apply List.mem_filter.2
      constructor
      · rw [linkTree_files]
        apply List.mem_append_right
        apply List.mem_map.2
        refine ⟨(latest ++ [repoName, arch, "os"] ++ s, i), List.mem_filter.2 ⟨hmem, ?_⟩, ?_⟩
        · exact isUnder_append (latest ++ [repoName, arch, "os"]) s
        · simp [List.drop_left]
      · simp only [isUnder_cancel, hrep]
        rfl
    · intro s i hmem
      have hsf : ((latest ++ [repoName, arch, "os"] ++ ["repodata"] ++ s, i)) ∈
          ((rmtreeI ((latest ++ [repoName, arch, "kickstart"]) ++ ["repodata"])
            (linkTree (latest ++ [repoName, arch, "os"])
              (latest ++ [repoName, arch, "kickstart"]) fs)).files.filter
            (fun f => isUnder ((latest ++ [repoName, arch, "os"]) ++ ["repodata"]) f.1)) := by
        apply List.mem_filter.2
        constructor
        · rw [rmtreeI_files]
          apply List.mem_filter.2
          constructor
          · rw [linkTree_files]
            exact List.mem_append_left _ hmem
          · have hthis := hkick_os ["repodata"] (["repodata"] ++ s)
            simp only [List.append_assoc, List.cons_append, List.nil_append] at hthis ⊢
            simp [hthis]
        · exact isUnder_append ((latest ++ [repoName, arch, "os"]) ++ ["repodata"]) s
      rcases freshCopies_mem ((latest ++ [repoName, arch, "os"]) ++ ["repodata"]).length
        ((latest ++ [repoName, arch, "kickstart"]) ++ ["repodata"]) _ _ hsf
        ((rmtreeI ((latest ++ [repoName, arch, "kickstart"]) ++ ["repodata"])
          (linkTree (latest ++ [repoName, arch, "os"])
            (latest ++ [repoName, arch, "kickstart"]) fs)).next) with ⟨j, hj, hjmem⟩
      simp only [List.drop_left] at hjmem
      refine ⟨j, ?_, ?_⟩
      · rw [hck, copyTreeFresh_files]
        apply List.mem_append_right
        simpa using hjmem
      · intro q i' hq'
        have := hwf' (q, i') hq'
        have hnext : (rmtreeI ((latest ++ [repoName, arch, "kickstart"]) ++ ["repodata"])
            (linkTree (latest ++ [repoName, arch, "os"])
              (latest ++ [repoName, arch, "kickstart"]) fs)).next = fs.next := rfl
        rw [hnext] at hj
        simp only at this
        omega
  · intro hN q i hq hunder
    by_cases hg : (latest ++ [repoName, arch, "os"]) ∈ fs.dirs ∧
        (latest ++ [repoName, arch, "kickstart"]) ∉ fs.dirs
    · have hck : createKickstartFolder latest repoName arch fs =
          copyTreeFresh ((latest ++ [repoName, arch, "os"]) ++ ["repodata"])
            ((latest ++ [repoName, arch, "kickstart"]) ++ ["repodata"])
            (rmtreeI ((latest ++ [repoName, arch, "kickstart"]) ++ ["repodata"])
              (linkTree (latest ++ [repoName, arch, "os"])
                (latest ++ [repoName, arch, "kickstart"]) fs)) := by
        simp only [createKickstartFolder]
        rw [if_pos hg]
      rw [hck, copyTreeFresh_files] at hq
      rcases List.mem_append.1 hq with hq1 | hq1
      · rw [rmtreeI_files] at hq1
        rcases List.mem_filter.1 hq1 with ⟨hq3, hkeep⟩
        rw [linkTree_files] at hq3
        rcases List.mem_append.1 hq3 with hq4 | hq4
        · have := List.all_eq_true.mp hN (q, i) hq4
          simp [hunder] at this
        · rcases List.mem_map.1 hq4 with ⟨f, hf, hfe⟩
          rcases List.mem_filter.1 hf with ⟨hf2, hfu⟩
          rcases (isUnder_iff _ _).1 hfu with ⟨t, ht⟩
          rw [ht] at hfe
          simp only [List.drop_left] at hfe
          have hq5 : q = latest ++ [repoName, arch, "kickstart"] ++ t := by
            have := congrArg Prod.fst hfe
            simpa using this.symm
          have hi : f.2 = i := by
            have := congrArg Prod.snd hfe
            simpa using this
          refine ⟨t, hq5, Or.inl ⟨?_, ?_⟩⟩
          · rw [hq5] at hkeep
            have ec : isUnder ((latest ++ [repoName, arch, "kickstart"]) ++ ["repodata"])
                ((latest ++ [repoName, arch, "kickstart"]) ++ t) = isUnder ["repodata"] t :=
              isUnder_cancel _ _ _
            simp only [List.append_assoc] at ec hkeep
            rw [ec] at hkeep
            simpa using hkeep
          · have hfeq : (latest ++ [repoName, arch, "os"] ++ t, i) = f := by
              rcases f with ⟨fp, fi⟩
              simp only at ht hi
              rw [ht, hi]
            rw [hfeq]
            exact hf2
      · rcases freshCopies_mem_rev _ _ _ _ _ _ hq1 with ⟨f, hfsf, hqe, hni⟩
        rcases List.mem_filter.1 hfsf with ⟨hf2, hfu⟩
        rcases (isUnder_iff _ _).1 hfu with ⟨t, ht⟩
        rw [ht] at hqe
        simp only [List.drop_left] at hqe
        rw [rmtreeI_files] at hf2
        have hf3 := (List.mem_filter.1 hf2).1
        rw [linkTree_files] at hf3
        rcases List.mem_append.1 hf3 with hf4 | hf4
        · refine ⟨"repodata" :: t, ?_, Or.inr ⟨?_, ⟨f.2, ?_⟩, ?_⟩⟩
          · rw [hqe]
            simp
          · simp [isUnder]
          · have e : latest ++ [repoName, arch, "os"] ++ "repodata" :: t = f.1 := by
              rw [ht]
              simp
            have hfeq : (latest ++ [repoName, arch, "os"] ++ "repodata" :: t, f.2) = f := by
              rw [e]
            rw [hfeq]
            exact hf4
          · intro q' i' hq'
            have hlt := hwf' (q', i') hq'
            have hnext : (rmtreeI ((latest ++ [repoName, arch, "kickstart"]) ++ ["repodata"])
                (linkTree (latest ++ [repoName, arch, "os"])
                  (latest ++ [repoName, arch, "kickstart"]) fs)).next = fs.next := rfl
            rw [hnext] at hni
            simp only at hlt
            omega
        · rcases List.mem_map.1 hf4 with ⟨g, hg', hge⟩
          have hfp := congrArg Prod.fst hge
          simp only at hfp
          rw [← hfp] at hfu
          rw [hos_kick ["repodata"] _] at hfu
          cases hfu
    · have hid : createKickstartFolder latest repoName arch fs = fs := by
        simp only [createKickstartFolder]
        rw [if_neg hg]
      rw [hid] at hq
      have := List.all_eq_true.mp hN (q, i) hq
      simp [hunder] at this

/-- Witness for C5 on a concrete `os` tree: the package file is hardlinked
into `kickstart` (same inode 0), while the repodata file reappears under
`kickstart/repodata` with an inode shared with no original file. -/
theorem claim_C5_witness :
    wfInodes exampleKickstartFS = true ∧
    (["BaseOS", "x86_64", "kickstart", "f1.rpm"], 0) ∈
      (createKickstartFolder [] "BaseOS" "x86_64" exampleKickstartFS).files ∧
    ∃ j, (["BaseOS", "x86_64", "kickstart", "repodata", "repomd.xml"], j) ∈
        (createKickstartFolder [] "BaseOS" "x86_64" exampleKickstartFS).files ∧
      ∀ q i', (q, i') ∈ exampleKickstartFS.files → i' ≠ j :=
  ⟨by decide,
   ((claim_C5 [] "BaseOS" "x86_64" exampleKickstartFS (by decide)).2.1
       (by decide) (by decide)).1 ["f1.rpm"] 0 (by decide) (by decide),
   ((claim_C5 [] "BaseOS" "x86_64" exampleKickstartFS (by decide)).2.1
       (by decide) (by decide)).2 ["repomd.xml"] 1 (by decide)⟩

theorem lookupF_eq_some_mem {files : List (List String × String)} {p : List String}
    {c : String} (h : lookupF files p = some c) : (p, c) ∈ files := by
  unfold lookupF at h
  rcases hf : files.find? (fun f => f.1 == p) with _ | f
  · rw [hf] at h
    cases h
  · rw [hf] at h
    have hmem := List.mem_of_find?_eq_some hf
    have hp := List.find?_some hf
    rcases f with ⟨fp, fc⟩
    simp only [beq_iff_eq] at hp
    simp only [Option.map_some'] at h
    injection h with h2
    subst hp
    subst h2
    exact hmem

theorem lookupF_none_iff {files : List (List String × String)} {p : List String} :
    lookupF files p = none ↔ ∀ f ∈ files, f.1 ≠ p := by
  constructor
  · intro h f hf he
    unfold lookupF at h
    rcases hfind : files.find? (fun f => f.1 == p) with _ | g
    · rw [List.find?_eq_none] at hfind
      exact hfind f hf (by simp [he])
    · rw [hfind] at h
      simp at h
  · intro h
    unfold lookupF
    rw [List.find?_eq_none.mpr (fun x hx => by simpa using h x hx)]
    rfl

theorem anyPath_true_of_lookup_some {files : List (List String × String)}
    {p : List String} {c : String} (h : lookupF files p = some c) :
    files.any (fun f => f.1 == p) = true :=
  List.any_eq_true.2 ⟨(p, c), lookupF_eq_some_mem h, by simp⟩

theorem anyPath_false_of_lookup_none {files : List (List String × String)}
    {p : List String} (h : lookupF files p = none) :
    files.any (fun f => f.1 == p) = false := by
  rw [List.any_eq_false]
  intro f hf
  simp only [beq_iff_eq]
  exact lookupF_none_iff.1 h f hf

theorem mem_lookupF_of_nodup {files : List (List String × String)} {p : List String}
    {c : String} (hn : pathsNodup files) (h : (p, c) ∈ files) :
    lookupF files p = some c := by
  induction files with
  | nil => cases h
  | cons f rest ih =>
    unfold pathsNodup at hn
    rw [List.map_cons, List.nodup_cons] at hn
    rcases List.mem_cons.1 h with h1 | h1
    · subst h1
      unfold lookupF
      rw [List.find?_cons, show ((p, c).1 == p) = true from by simp]
      rfl
    · have hne : f.1 ≠ p := by
        intro he
        exact hn.1 (he ▸ List.mem_map.2 ⟨(p, c), h1, rfl⟩)
      unfold lookupF
      rw [List.find?_cons, show (f.1 == p) = false from by simp [hne]]
      exact ih hn.2 h1

theorem lookupF_filter_keep (files : List (List String × String)) (p q : List String)
    (h : q ≠ p) :
    lookupF (files.filter (fun f => !(f.1 == p))) q = lookupF files q := by
  induction files with
  | nil => rfl
  | cons f rest ih =>
    by_cases hf : f.1 = p
    · have hfq : (f.1 == q) = false := by simp [hf, Ne.symm h]
      rw [List.filter_cons, if_neg (by simp [hf])]
      simp only [lookupF, List.find?_cons, hfq]
      exact ih
    · by_cases hq : f.1 = q
      · have hfq : (f.1 == q) = true := by simp [hq]
        rw [List.filter_cons, if_pos (by simp [hf])]
        simp only [lookupF, List.find?_cons, hfq]
      · have hfq : (f.1 == q) = false := by simp [hq]
        rw [List.filter_cons, if_pos (by simp [hf])]
        simp only [lookupF, List.find?_cons, hfq]
        exact ih

theorem lookupF_append_single (l : List (List String × String)) (p : List String)
    (c : String) (q : List String) (h : q ≠ p) :
    lookupF (l ++ [(p, c)]) q = lookupF l q := by
  induction l with
  | nil =>
    have hb : ((p, c).1 == q) = false := by simp [Ne.symm h]
    simp only [List.nil_append, lookupF, List.find?_cons, hb, List.find?_nil]
  | cons f rest ih =>
    by_cases hq : f.1 = q
    · have hfq : (f.1 == q) = true := by simp [hq]
      simp only [List.cons_append, lookupF, List.find?_cons, hfq]
    · have hfq : (f.1 == q) = false := by simp [hq]
      simp only [List.cons_append, lookupF, List.find?_cons, hfq]
      exact ih

theorem lookupF_append_single_self (l : List (List String × String)) (p : List String)
    (c : String) (hnone : ∀ f ∈ l, f.1 ≠ p) :
    lookupF (l ++ [(p, c)]) p = some c := by
  induction l with
  | nil =>
    have hb : ((p, c).1 == p) = true := by simp
    simp only [List.nil_append, lookupF, List.find?_cons, hb]
    rfl
  | cons f rest ih =>
    have hfq : (f.1 == p) = false := by simp [hnone f (List.mem_cons_self f rest)]
    simp only [List.cons_append, lookupF, List.find?_cons, hfq]
    exact ih (fun g hg => hnone g (List.mem_cons_of_mem f hg))

theorem lookupF_filter_under_keep (files : List (List String × String))
    (p q : List String) (h : isUnder p q = false) :
    lookupF (files.filter (fun f => !(isUnder p f.1))) q = lookupF files q := by
  induction files with
  | nil => rfl
  | cons f rest ih =>
    by_cases hu : isUnder p f.1 = true
    · have hfq : (f.1 == q) = false := by
        simp only [beq_eq_false_iff_ne]
        intro he
        exact absurd (he ▸ hu) (by simp [h])
      rw [List.filter_cons, if_neg (by simp [hu])]
      simp only [lookupF, List.find?_cons, hfq]
      exact ih
    · have hu' : isUnder p f.1 = false := Bool.eq_false_iff.mpr hu
      rw [List.filter_cons, if_pos (by simp [hu'])]
      by_cases hq : f.1 = q
      · have hfq : (f.1 == q) = true := by simp [hq]
        simp only [lookupF, List.find?_cons, hfq]
      · have hfq : (f.1 == q) = false := by simp [hq]
        simp only [lookupF, List.find?_cons, hfq]
        exact ih

theorem append_singleton_inj {l₁ l₂ : List String} {a b : String}
    (h : l₁ ++ [a] = l₂ ++ [b]) : l₁ = l₂ ∧ a = b := by
  have hl : l₁.length = l₂.length := by
    have := congrArg List.length h
    simp only [List.length_append, List.length_cons, List.length_nil] at this
    omega
  rcases List.append_inj h hl with ⟨e1, e2⟩
  refine ⟨e1, ?_⟩
  injection e2

theorem move1_dirs (srcDir dstDir : List String) (fs : FS6) (nc : String × String) :
    (move1 srcDir dstDir fs nc).dirs = fs.dirs := by
  unfold move1
  split_ifs <;> rfl

theorem move1_move_eq (srcDir dstDir : List String) (fs : FS6) (nc : String × String)
    (h1 : fs.files.any (fun f => f.1 == srcDir ++ [nc.1]) = true)
    (h2 : fs.files.any (fun f => f.1 == dstDir ++ [nc.1]) = false) :
    move1 srcDir dstDir fs nc =
      { fs with files := fs.files.filter (fun f => !(f.1 == srcDir ++ [nc.1]))
          ++ [(dstDir ++ [nc.1], nc.2)] } := by
  unfold move1
  simp [h1, h2]

theorem move1_lookup_other (srcDir dstDir : List String) (fs : FS6) (nc : String × String)
    (q : List String) (h1 : q ≠ srcDir ++ [nc.1]) (h2 : q ≠ dstDir ++ [nc.1]) :
    lookupF (move1 srcDir dstDir fs nc).files q = lookupF fs.files q := by
  unfold move1
  split_ifs with ha hb
  · rfl
  · rfl
  · show lookupF (fs.files.filter (fun f => !(f.1 == srcDir ++ [nc.1]))
      ++ [(dstDir ++ [nc.1], nc.2)]) q = lookupF fs.files q
    rw [lookupF_append_single _ _ _ _ h2, lookupF_filter_keep _ _ _ h1]

theorem move1_dst_keep (srcDir dstDir : List String) (fs : FS6) (nc : String × String)
    (n : String) (c : String) (hd : srcDir ≠ dstDir)
    (hc : lookupF fs.files (dstDir ++ [n]) = some c) :
    lookupF (move1 srcDir dstDir fs nc).files (dstDir ++ [n]) = some c := by
  by_cases hn : nc.1 = n
  · unfold move1
    split_ifs with ha hb
    · exact hc
    · exact hc
    · exfalso
      apply hb
      exact List.any_eq_true.2 ⟨(dstDir ++ [n], c), lookupF_eq_some_mem hc, by simp [hn]⟩
  · rw [move1_lookup_other]
    · exact hc
    · intro he
      exact hd (append_singleton_inj he).1.symm
    · intro he
      exact hn ((append_singleton_inj he).2).symm

theorem move1_nodup (srcDir dstDir : List String) (fs : FS6) (nc : String × String)
    (h : pathsNodup fs.files) : pathsNodup (move1 srcDir dstDir fs nc).files := by
  unfold move1
  split_ifs with ha hb
  · exact h
  · exact h
  · show pathsNodup (fs.files.filter (fun f => !(f.1 == srcDir ++ [nc.1]))
      ++ [(dstDir ++ [nc.1], nc.2)])
    unfold pathsNodup at h ⊢
    rw [List.map_append]
    apply List.Nodup.append
    · exact h.sublist ((List.filter_sublist fs.files).map Prod.fst)
    · simp
    · intro a ha1 ha2
      simp only [List.map_cons, List.map_nil, List.mem_singleton] at ha2
      subst ha2
      rcases List.mem_map.1 ha1 with ⟨f, hf, hfe⟩
      have hf2 := (List.mem_filter.1 hf).1
      apply hb
      exact List.any_eq_true.2 ⟨f, hf2, by simp [hfe]⟩

theorem moveFilesL_dirs (srcDir dstDir : List String) :
    ∀ (l : List (String × String)) (fs : FS6),
      (moveFilesL srcDir dstDir fs l).dirs = fs.dirs := by
  intro l
  induction l with
  | nil => intro fs; rfl
  | cons nc rest ih =>
    intro fs
    show (moveFilesL srcDir dstDir (move1 srcDir dstDir fs nc) rest).dirs = fs.dirs
    rw [ih, move1_dirs]

theorem moveFilesL_nodup (srcDir dstDir : List String) :
    ∀ (l : List (String × String)) (fs : FS6), pathsNodup fs.files →
      pathsNodup (moveFilesL srcDir dstDir fs l).files := by
  intro l
  induction l with
  | nil => intro fs h; exact h
  | cons nc rest ih =>
    intro fs h
    exact ih _ (move1_nodup _ _ _ _ h)

theorem moveFilesL_lookup_other (srcDir dstDir : List String) :
    ∀ (l : List (String × String)) (fs : FS6) (q : List String),
      (∀ nc ∈ l, q ≠ srcDir ++ [nc.1] ∧ q ≠ dstDir ++ [nc.1]) →
      lookupF (moveFilesL srcDir dstDir fs l).files q = lookupF fs.files q := by
  intro l
  induction l with
  | nil => intro fs q _; rfl
  | cons nc rest ih =>
    intro fs q hl
    have h1 := hl nc (List.mem_cons_self nc rest)
    show lookupF (moveFilesL srcDir dstDir (move1 srcDir dstDir fs nc) rest).files q = _
    rw [ih _ q (fun g hg => hl g (List.mem_cons_of_mem nc hg)),
      move1_lookup_other _ _ _ _ _ h1.1 h1.2]

theorem moveFilesL_dst_keep (srcDir dstDir : List String) (hd : srcDir ≠ dstDir) :
    ∀ (l : List (String × String)) (fs : FS6) (n : String) (c : String),
      lookupF fs.files (dstDir ++ [n]) = some c →
      lookupF (moveFilesL srcDir dstDir fs l).files (dstDir ++ [n]) = some c := by
  intro l
  induction l with
  | nil => intro fs n c hc; exact hc
  | cons nc rest ih =>
    intro fs n c hc
    exact ih _ n c (move1_dst_keep _ _ _ _ _ _ hd hc)

theorem moveFilesL_moves (srcDir dstDir : List String) (hd : srcDir ≠ dstDir) :
    ∀ (l : List (String × String)) (fs : FS6) (n : String) (c : String),
      pathsNodup fs.files →
      (∀ nc ∈ l, lookupF fs.files (srcDir ++ [nc.1]) = some nc.2) →
      (l.map Prod.fst).Nodup →
      (n, c) ∈ l →
      lookupF fs.files (dstDir ++ [n]) = none →
      lookupF (moveFilesL srcDir dstDir fs l).files (dstDir ++ [n]) = some c := by
  intro l
  induction l with
  | nil => intro fs n c _ _ _ hmem _; cases hmem
  | cons mc rest ih =>
    intro fs n c hnodup hsrc hnames hmem hdst
    rw [List.map_cons, List.nodup_cons] at hnames
    by_cases hmn : mc.1 = n
    · have hcc : mc.2 = c := by
        rcases List.mem_cons.1 hmem with h1 | h1
        · rw [← h1]
        · exact absurd (hmn ▸ List.mem_map.2 ⟨(n, c), h1, rfl⟩) hnames.1
      have hany1 : fs.files.any (fun f => f.1 == srcDir ++ [mc.1]) = true :=
        anyPath_true_of_lookup_some (hsrc mc (List.mem_cons_self mc rest))
      have hany2 : fs.files.any (fun f => f.1 == dstDir ++ [mc.1]) = false := by
        rw [hmn]
        exact anyPath_false_of_lookup_none hdst
      show lookupF (moveFilesL srcDir dstDir (move1 srcDir dstDir fs mc) rest).files
        (dstDir ++ [n]) = some c
      apply moveFilesL_dst_keep srcDir dstDir hd
      rw [move1_move_eq _ _ _ _ hany1 hany2]
      show lookupF (fs.files.filter (fun f => !(f.1 == srcDir ++ [mc.1]))
        ++ [(dstDir ++ [mc.1], mc.2)]) (dstDir ++ [n]) = some c
      rw [hmn, hcc]
      apply lookupF_append_single_self
      intro f hf
      exact lookupF_none_iff.1 hdst f (List.mem_filter.1 hf).1
    · show lookupF (moveFilesL srcDir dstDir (move1 srcDir dstDir fs mc) rest).files
        (dstDir ++ [n]) = some c
      apply ih
      · exact move1_nodup _ _ _ _ hnodup
      · intro nc hnc
        have hne : nc.1 ≠ mc.1 := by
          intro he
          exact hnames.1 (he ▸ List.mem_map.2 ⟨nc, hnc, rfl⟩)
        rw [move1_lookup_other]
        · exact hsrc nc (List.mem_cons_of_mem mc hnc)
        · intro he
          exact hne (append_singleton_inj he).2
        · intro he
          exact hd (append_singleton_inj he).1
      · exact hnames.2
      · rcases List.mem_cons.1 hmem with h1 | h1
        · exact absurd (congrArg Prod.fst h1.symm) hmn
        · exact h1
      · rw [move1_lookup_other]
        · exact hdst
        · intro he
          exact hd (append_singleton_inj he).1.symm
        · intro he
          exact hmn ((append_singleton_inj he).2).symm

theorem childName_some (d p : List String) (n : String) (h : childName d p = some n) :
    p = d ++ [n] := by
  unfold childName at h
  split_ifs at h with hc
  · simp only [Bool.and_eq_true, decide_eq_true_eq] at hc
    rcases (isUnder_iff d p).1 hc.2 with ⟨t, rfl⟩
    have hlen : t.length = 1 := by
      have := hc.1
      simp only [List.length_append] at this
      omega
    rcases t with _ | ⟨x, t'⟩
    · simp at hlen
    · have ht' : t' = [] := by
        simp only [List.length_cons] at hlen
        exact List.eq_nil_of_length_eq_zero (by omega)
      subst ht'
      rw [List.getLast?_concat] at h
      injection h with h2
      rw [h2]

theorem childName_concat (d : List String) (n : String) :
    childName d (d ++ [n]) = some n := by
  unfold childName
  rw [if_pos (by simp [isUnder_append])]
  exact List.getLast?_concat _

theorem globChildren_mem (d : List String) (sfx : String)
    (files : List (List String × String)) :
    ∀ nc ∈ globChildren d sfx files,
      strEndsW nc.1 sfx = true ∧ (d ++ [nc.1], nc.2) ∈ files := by
  intro nc hnc
  unfold globChildren at hnc
  rcases List.mem_filterMap.1 hnc with ⟨f, hf, he⟩
  rcases hcn : childName d f.1 with _ | n
  · rw [hcn] at he
    cases he
  · rw [hcn] at he
    simp only [Option.some_bind] at he
    by_cases he2 : strEndsW n sfx = true
    · rw [if_pos he2] at he
      injection he with he3
      subst he3
      have hp := childName_some d f.1 n hcn
      refine ⟨he2, ?_⟩
      have : f = (d ++ [n], f.2) := by
        rcases f with ⟨fp, fc⟩
        simp only at hp
        rw [hp]
      rw [← this]
      exact hf
    · rw [if_neg he2] at he
      cases he

theorem globChildren_mem_of (d : List String) (sfx : String)
    (files : List (List String × String)) (n : String) (c : String)
    (hmem : (d ++ [n], c) ∈ files) (hends : strEndsW n sfx = true) :
    (n, c) ∈ globChildren d sfx files := by
  unfold globChildren
  apply List.mem_filterMap.2
  exact ⟨(d ++ [n], c), hmem, by simp [childName_concat, hends]⟩

theorem globChildren_names_nodup (d : List String) (sfx : String)
    (files : List (List String × String)) (h : pathsNodup files) :
    ((globChildren d sfx files).map Prod.fst).Nodup := by
  induction files with
  | nil => simp [globChildren]
  | cons f rest ih =>
    unfold pathsNodup at h
    rw [List.map_cons, List.nodup_cons] at h
    have htail := ih h.2
    unfold globChildren
    rw [List.filterMap_cons]
    rcases hg : (childName d f.1).bind
        (fun n => if strEndsW n sfx then some (n, f.2) else none) with _ | nc
    · exact htail
    · rw [List.map_cons, List.nodup_cons]
      refine ⟨?_, htail⟩
      intro hin
      rcases List.mem_map.1 hin with ⟨nc', hnc', hfst⟩
      have h2 := (globChildren_mem d sfx rest nc' hnc').2
      rcases hcn : childName d f.1 with _ | m
      · rw [hcn] at hg
        cases hg
      · rw [hcn] at hg
        simp only [Option.some_bind] at hg
        by_cases he2 : strEndsW m sfx = true
        · rw [if_pos he2] at hg
          injection hg with hg2
          have hp := childName_some d f.1 m hcn
          apply h.1
          have hm : nc'.1 = m := by
            rw [hfst, ← hg2]
          rw [hp]
          rw [hm] at h2
          exact List.mem_map.2 ⟨(d ++ [m], nc'.2), h2, rfl⟩
        · rw [if_neg he2] at hg
          cases hg

theorem movePass_dirs (srcDir dstDir : List String) (sfx : String) (fs : FS6) :
    (movePass srcDir dstDir sfx fs).dirs = fs.dirs :=
  moveFilesL_dirs srcDir dstDir _ fs

theorem movePass_nodup (srcDir dstDir : List String) (sfx : String) (fs : FS6)
    (h : pathsNodup fs.files) : pathsNodup (movePass srcDir dstDir sfx fs).files :=
  moveFilesL_nodup srcDir dstDir _ fs h

theorem movePass_lookup_other (srcDir dstDir : List String) (sfx : String) (fs : FS6)
    (q : List String) (hq1 : isUnder srcDir q = false) (hq2 : isUnder dstDir q = false) :
    lookupF (movePass srcDir dstDir sfx fs).files q = lookupF fs.files q := by
  apply moveFilesL_lookup_other
  intro nc _
  constructor
  · intro he
    rw [he, isUnder_append] at hq1
    cases hq1
  · intro he
    rw [he, isUnder_append] at hq2
    cases hq2

theorem movePass_dst_keep (srcDir dstDir : List String) (sfx : String) (fs : FS6)
    (n : String) (c : String) (hd : srcDir ≠ dstDir)
    (hc : lookupF fs.files (dstDir ++ [n]) = some c) :
    lookupF (movePass srcDir dstDir sfx fs).files (dstDir ++ [n]) = some c :=
  moveFilesL_dst_keep srcDir dstDir hd _ fs n c hc

theorem movePass_lookup_nomatch (srcDir dstDir : List String) (sfx : String) (fs : FS6)
    (n : String) (hd : srcDir ≠ dstDir) (hends : strEndsW n sfx = false) :
    lookupF (movePass srcDir dstDir sfx fs).files (srcDir ++ [n]) =
      lookupF fs.files (srcDir ++ [n]) ∧
    lookupF (movePass srcDir dstDir sfx fs).files (dstDir ++ [n]) =
      lookupF fs.files (dstDir ++ [n]) := by
  have hne : ∀ nc ∈ globChildren srcDir sfx fs.files, nc.1 ≠ n := by
    intro nc hnc he
    have := (globChildren_mem srcDir sfx fs.files nc hnc).1
    rw [he, hends] at this
    cases this
  constructor
  · apply moveFilesL_lookup_other
    intro nc hnc
    constructor
    · intro he
      exact hne nc hnc ((append_singleton_inj he).2).symm
    · intro he
      exact hd (append_singleton_inj he).1
  · apply moveFilesL_lookup_other
    intro nc hnc
    constructor
    · intro he
      exact hd (append_singleton_inj he).1.symm
    · intro he
      exact hne nc hnc ((append_singleton_inj he).2).symm

theorem movePass_moves (srcDir dstDir : List String) (sfx : String) (fs : FS6)
    (n : String) (c : String) (hd : srcDir ≠ dstDir) (hnodup : pathsNodup fs.files)
    (hsrc : lookupF fs.files (srcDir ++ [n]) = some c)
    (hends : strEndsW n sfx = true)
    (hdst : lookupF fs.files (dstDir ++ [n]) = none) :
    lookupF (movePass srcDir dstDir sfx fs).files (dstDir ++ [n]) = some c := by
  apply moveFilesL_moves srcDir dstDir hd _ fs n c hnodup
  · intro nc hnc
    exact mem_lookupF_of_nodup hnodup (globChildren_mem srcDir sfx fs.files nc hnc).2
  · exact globChildren_names_nodup srcDir sfx fs.files hnodup
  · exact globChildren_mem_of srcDir sfx fs.files n c (lookupF_eq_some_mem hsrc) hends
  · exact hdst

theorem foldPass_dirs (srcDir dstDir : List String) :
    ∀ (exts : List String) (fs : FS6),
      (exts.foldl (fun f sfx => movePass srcDir dstDir sfx f) fs).dirs = fs.dirs := by
  intro exts
  induction exts with
  | nil => intro fs; rfl
  | cons e rest ih =>
    intro fs
    show (rest.foldl _ (movePass srcDir dstDir e fs)).dirs = fs.dirs
    rw [ih, movePass_dirs]

theorem foldPass_nodup (srcDir dstDir : List String) :
    ∀ (exts : List String) (fs : FS6), pathsNodup fs.files →
      pathsNodup (exts.foldl (fun f sfx => movePass srcDir dstDir sfx f) fs).files := by
  intro exts
  induction exts with
  | nil => intro fs h; exact h
  | cons e rest ih =>
    intro fs h
    exact ih _ (movePass_nodup _ _ _ _ h)

theorem foldPass_lookup_other (srcDir dstDir : List String) :
    ∀ (exts : List String) (fs : FS6) (q : List String),
      isUnder srcDir q = false → isUnder dstDir q = false →
      lookupF (exts.foldl (fun f sfx => movePass srcDir dstDir sfx f) fs).files q =
        lookupF fs.files q := by
  intro exts
  induction exts with
  | nil => intro fs q _ _; rfl
  | cons e rest ih =>
    intro fs q h1 h2
    show lookupF (rest.foldl _ (movePass srcDir dstDir e fs)).files q = _
    rw [ih _ q h1 h2, movePass_lookup_other _ _ _ _ _ h1 h2]

theorem foldPass_dst_keep (srcDir dstDir : List String) (hd : srcDir ≠ dstDir) :
    ∀ (exts : List String) (fs : FS6) (n : String) (c : String),
      lookupF fs.files (dstDir ++ [n]) = some c →
      lookupF (exts.foldl (fun f sfx => movePass srcDir dstDir sfx f) fs).files
        (dstDir ++ [n]) = some c := by
  intro exts
  induction exts with
  | nil => intro fs n c hc; exact hc
  | cons e rest ih =>
    intro fs n c hc
    exact ih _ n c (movePass_dst_keep _ _ _ _ _ _ hd hc)

theorem foldPass_lookup_nomatch (srcDir dstDir : List String) (hd : srcDir ≠ dstDir) :
    ∀ (exts : List String) (fs : FS6) (n : String),
      exts.all (fun sfx => !(strEndsW n sfx)) = true →
      lookupF (exts.foldl (fun f sfx => movePass srcDir dstDir sfx f) fs).files
          (srcDir ++ [n]) = lookupF fs.files (srcDir ++ [n]) ∧
      lookupF (exts.foldl (fun f sfx => movePass srcDir dstDir sfx f) fs).files
          (dstDir ++ [n]) = lookupF fs.files (dstDir ++ [n]) := by
  intro exts
  induction exts with
  | nil => intro fs n _; exact ⟨rfl, rfl⟩
  | cons e rest ih =>
    intro fs n hall
    rw [List.all_cons, Bool.and_eq_true] at hall
    have he : strEndsW n e = false := by
      have := hall.1
      simp only [Bool.not_eq_true'] at this
      exact this
    have hp := movePass_lookup_nomatch srcDir dstDir e fs n hd he
    have hr := ih (movePass srcDir dstDir e fs) n hall.2
    exact ⟨hr.1.trans hp.1, hr.2.trans hp.2⟩

theorem foldPass_moves (srcDir dstDir : List String) (hd : srcDir ≠ dstDir) :
    ∀ (exts : List String) (fs : FS6) (n : String) (c : String),
      pathsNodup fs.files →
      lookupF fs.files (srcDir ++ [n]) = some c →
      exts.any (fun sfx => strEndsW n sfx) = true →
      lookupF fs.files (dstDir ++ [n]) = none →
      lookupF (exts.foldl (fun f sfx => movePass srcDir dstDir sfx f) fs).files
        (dstDir ++ [n]) = some c := by
  intro exts
  induction exts with
  | nil => intro fs n c _ _ hany _; cases hany
  | cons e rest ih =>
    intro fs n c hnodup hsrc hany hdst
    by_cases he : strEndsW n e = true
    · have h1 := movePass_moves srcDir dstDir e fs n c hd hnodup hsrc he hdst
      exact foldPass_dst_keep srcDir dstDir hd rest _ n c h1
    · have he' : strEndsW n e = false := Bool.eq_false_iff.mpr he
      have hp := movePass_lookup_nomatch srcDir dstDir e fs n hd he'
      apply ih
      · exact movePass_nodup _ _ _ _ hnodup
      · rw [hp.1]
        exact hsrc
      · rw [List.any_cons, Bool.or_eq_true] at hany
        rcases hany with h1 | h1
        · exact absurd h1 he
        · exact h1
      · rw [hp.2]
        exact hdst

theorem setContentF_dirs (p : List String) (c : String) (fs : FS6) :
    (setContentF p c fs).dirs = fs.dirs := rfl

theorem setContentF_lookup_self (p : List String) (c : String) (fs : FS6) :
    lookupF (setContentF p c fs).files p = some c := by
  show lookupF (fs.files.filter (fun f => !(f.1 == p)) ++ [(p, c)]) p = some c
  apply lookupF_append_single_self
  intro f hf
  have := (List.mem_filter.1 hf).2
  simpa using this

theorem setContentF_lookup_other (p : List String) (c : String) (fs : FS6)
    (q : List String) (h : q ≠ p) :
    lookupF (setContentF p c fs).files q = lookupF fs.files q := by
  show lookupF (fs.files.filter (fun f => !(f.1 == p)) ++ [(p, c)]) q = lookupF fs.files q
  rw [lookupF_append_single _ _ _ _ h, lookupF_filter_keep _ _ _ h]

theorem setContentF_nodup (p : List String) (c : String) (fs : FS6)
    (h : pathsNodup fs.files) : pathsNodup (setContentF p c fs).files := by
  show pathsNodup (fs.files.filter (fun f => !(f.1 == p)) ++ [(p, c)])
  unfold pathsNodup at h ⊢
  rw [List.map_append]
  apply List.Nodup.append
  · exact h.sublist ((List.filter_sublist fs.files).map Prod.fst)
  · simp
  · intro a ha1 ha2
    simp only [List.map_cons, List.map_nil, List.mem_singleton] at ha2
    subst ha2
    rcases List.mem_map.1 ha1 with ⟨f, hf, hfe⟩
    have := (List.mem_filter.1 hf).2
    rw [hfe] at this
    simp at this

theorem appendChecksum_dirs (srcIso isosDir : List String) (fs : FS6) :
    (appendChecksum srcIso isosDir fs).dirs = fs.dirs := by
  unfold appendChecksum
  rcases lookupF fs.files (srcIso ++ ["CHECKSUM"]) with _ | c
  · rfl
  · exact setContentF_dirs _ _ _

theorem appendChecksum_nodup (srcIso isosDir : List String) (fs : FS6)
    (h : pathsNodup fs.files) : pathsNodup (appendChecksum srcIso isosDir fs).files := by
  unfold appendChecksum
  rcases lookupF fs.files (srcIso ++ ["CHECKSUM"]) with _ | c
  · exact h
  · exact setContentF_nodup _ _ _ h

theorem appendChecksum_lookup_other (srcIso isosDir : List String) (fs : FS6)
    (q : List String) (h : q ≠ isosDir ++ ["CHECKSUM"]) :
    lookupF (appendChecksum srcIso isosDir fs).files q = lookupF fs.files q := by
  unfold appendChecksum
  rcases lookupF fs.files (srcIso ++ ["CHECKSUM"]) with _ | c
  · rfl
  · exact setContentF_lookup_other _ _ _ _ h

theorem appendChecksum_writes (srcIso isosDir : List String) (fs : FS6) (cS : String)
    (hsrc : lookupF fs.files (srcIso ++ ["CHECKSUM"]) = some cS) :
    lookupF (appendChecksum srcIso isosDir fs).files (isosDir ++ ["CHECKSUM"]) =
      some (((lookupF fs.files (isosDir ++ ["CHECKSUM"])).getD "") ++ cS) := by
  unfold appendChecksum
  rw [hsrc]
  exact setContentF_lookup_self _ _ _

theorem rmtreeF_lookup_keep (p : List String) (fs : FS6) (q : List String)
    (h : isUnder p q = false) :
    lookupF (rmtreeF p fs).files q = lookupF fs.files q :=
  lookupF_filter_under_keep fs.files p q h

theorem rmtreeF_nodup (p : List String) (fs : FS6) (h : pathsNodup fs.files) :
    pathsNodup (rmtreeF p fs).files := by
  unfold pathsNodup at h ⊢
  exact h.sublist ((List.filter_sublist fs.files).map Prod.fst)

theorem rmtreeF_dir_kept (p : List String) (fs : FS6) (q : List String)
    (hq : q ∈ fs.dirs) (h : isUnder p q = false) : q ∈ (rmtreeF p fs).dirs :=
  List.mem_filter.2 ⟨hq, by simp [h]⟩

theorem rmtreeF_dir_gone (p : List String) (fs : FS6) :
    (rmtreeF p fs).dirs.contains p = false := by
  apply Bool.eq_false_iff.mpr
  intro hc
  have := List.mem_of_elem_eq_true hc
  have h2 := (List.mem_filter.1 this).2
  simp [isUnder_refl] at h2

theorem rmtreeF_no_files_under (p : List String) (fs : FS6) :
    (rmtreeF p fs).files.all (fun f => !(isUnder p f.1)) = true := by
  rw [List.all_eq_true]
  intro f hf
  exact (List.mem_filter.1 hf).2

theorem isUnder_cons_ne (a b : String) (p q : List String) (h : a ≠ b) :
    isUnder (a :: p) (b :: q) = false := by
  simp [isUnder, h]

/-- Claim C6 counterexample: the ISO-collection run is literally `rmtree`
applied to the post-move state, and on a variant whose `iso` directory holds
its CHECKSUM file that state still contains a file below the `iso` directory
at the moment of deletion — the directory is *not* empty when it is deleted
(the source CHECKSUM is only read and appended, never removed). -/
theorem claim_C6_counterexample :
    moveIsoAndItsArtifactsToIsosArchFolder [] "AppStream" "x86_64" [".iso", ".manifest"]
        none exampleIsoFS =
      rmtreeF ["AppStream", "x86_64", "iso"]
        (collectIsoMoves ["AppStream", "x86_64", "iso"] ["isos", "x86_64"]
          [".iso", ".manifest"] (makedirsF ["isos", "x86_64"] exampleIsoFS)) ∧
    (collectIsoMoves ["AppStream", "x86_64", "iso"] ["isos", "x86_64"] [".iso", ".manifest"]
        (makedirsF ["isos", "x86_64"] exampleIsoFS)).files.any
      (fun f => isUnder ["AppStream", "x86_64", "iso"] f.1) = true := by
  decide

/-- Claim C6 (amended): when the variant's `iso` directory exists, files
matching a requested extension are moved to `isos/<arch>` unless a file of
the same name already exists there (which is then left as it is), and after
processing the per-variant `iso` directory no longer exists — it is removed
unconditionally, together with whatever files (such as the source CHECKSUM
or skipped files) still remain inside it at that moment. -/
theorem claim_C6_amended (repoName arch : String) (exts : List String) (fs : FS6)
    (hnodup : pathsNodup fs.files) (hrepo : repoName ≠ "isos")
    (hdir : fs.dirs.contains ([repoName, arch, "iso"] : List String) = true) :
    (∀ n c, lookupF fs.files ([repoName, arch, "iso"] ++ [n]) = some c →
      exts.any (fun sfx => strEndsW n sfx) = true → n ≠ "CHECKSUM" →
      lookupF fs.files (["isos", arch] ++ [n]) = none →
      lookupF (moveIsoAndItsArtifactsToIsosArchFolder [] repoName arch exts none fs).files
        (["isos", arch] ++ [n]) = some c) ∧
    (∀ n c, lookupF fs.files (["isos", arch] ++ [n]) = some c → n ≠ "CHECKSUM" →
      lookupF (moveIsoAndItsArtifactsToIsosArchFolder [] repoName arch exts none fs).files
        (["isos", arch] ++ [n]) = some c) ∧
    ((moveIsoAndItsArtifactsToIsosArchFolder [] repoName arch exts none fs).dirs.contains
        ([repoName, arch, "iso"] : List String) = false ∧
      (moveIsoAndItsArtifactsToIsosArchFolder [] repoName arch exts none fs).files.all
        (fun f => !(isUnder [repoName, arch, "iso"] f.1)) = true) := by
  have hne : ([repoName, arch, "iso"] : List String) ≠ ["isos", arch] := by
    intro h
    have := congrArg List.length h
    simp at this
  have hmis : ∀ t : List String,
      isUnder [repoName, arch, "iso"] ("isos" :: t) = false := fun t =>
    isUnder_cons_ne repoName "isos" _ _ hrepo
  have hguard : (makedirsF ["isos", arch] fs).dirs.contains
      ([repoName, arch, "iso"] : List String) = true :=
    List.elem_eq_true_of_mem (List.mem_append_right _ (List.mem_of_elem_eq_true hdir))
  have hrun : moveIsoAndItsArtifactsToIsosArchFolder [] repoName arch exts none fs =
      rmtreeF [repoName, arch, "iso"]
        (collectIsoMoves [repoName, arch, "iso"] ["isos", arch] exts
          (makedirsF ["isos", arch] fs)) := by
    simp only [moveIsoAndItsArtifactsToIsosArchFolder, List.nil_append, Option.getD_none]
    rw [if_pos hguard]
  have hcm : collectIsoMoves [repoName, arch, "iso"] ["isos", arch] exts
      (makedirsF ["isos", arch] fs) =
      appendChecksum [repoName, arch, "iso"] ["isos", arch]
        (exts.foldl (fun f sfx => movePass [repoName, arch, "iso"] ["isos", arch] sfx f)
          (makedirsF ["isos", arch] fs)) := rfl
  refine ⟨?_, ?_, ?_⟩
  · intro n c hsrc hany hcsum hdst
    rw [hrun, rmtreeF_lookup_keep _ _ _
        (show isUnder [repoName, arch, "iso"] (["isos", arch] ++ [n]) = false from
          hmis ([arch] ++ [n])), hcm,
      appendChecksum_lookup_other _ _ _ _ (fun he => hcsum (append_singleton_inj he).2)]
    exact foldPass_moves [repoName, arch, "iso"] ["isos", arch] hne exts
      (makedirsF ["isos", arch] fs) n c hnodup hsrc hany hdst
  · intro n c hc hcsum
    rw [hrun, rmtreeF_lookup_keep _ _ _
        (show isUnder [repoName, arch, "iso"] (["isos", arch] ++ [n]) = false from
          hmis ([arch] ++ [n])), hcm,
      appendChecksum_lookup_other _ _ _ _ (fun he => hcsum (append_singleton_inj he).2)]
    exact foldPass_dst_keep [repoName, arch, "iso"] ["isos", arch] hne exts
      (makedirsF ["isos", arch] fs) n c hc
  · rw [hrun]
    exact ⟨rmtreeF_dir_gone _ _, rmtreeF_no_files_under _ _⟩

/-- Witness for the amended C6: the concrete ISO image is moved into
`isos/x86_64` and the per-variant `iso` directory is gone afterwards. -/
theorem claim_C6_witness :
    lookupF (moveIsoAndItsArtifactsToIsosArchFolder [] "AppStream" "x86_64"
        [".iso", ".manifest"] none exampleIsoFS2).files
      (["isos", "x86_64"] ++ ["AlmaLinux.iso"]) = some "ISO" ∧
    (moveIsoAndItsArtifactsToIsosArchFolder [] "AppStream" "x86_64" [".iso", ".manifest"]
        none exampleIsoFS2).dirs.contains
      (["AppStream", "x86_64", "iso"] : List String) = false :=
  ⟨(claim_C6_amended "AppStream" "x86_64" [".iso", ".manifest"] exampleIsoFS2
      (by decide) (by decide) (by decide)).1 "AlmaLinux.iso" "ISO"
      (by decide) (by decide) (by decide) (by decide),
   (claim_C6_amended "AppStream" "x86_64" [".iso", ".manifest"] exampleIsoFS2
      (by decide) (by decide) (by decide)).2.2.1⟩

theorem moveIso_run_eq (repoName arch : String) (exts : List String) (fs : FS6)
    (hdir : fs.dirs.contains ([repoName, arch, "iso"] : List String) = true) :
    moveIsoAndItsArtifactsToIsosArchFolder [] repoName arch exts none fs =
      rmtreeF [repoName, arch, "iso"]
        (appendChecksum [repoName, arch, "iso"] ["isos", arch]
          (exts.foldl (fun f sfx => movePass [repoName, arch, "iso"] ["isos", arch] sfx f)
            (makedirsF ["isos", arch] fs))) := by
  have hguard : (makedirsF ["isos", arch] fs).dirs.contains
      ([repoName, arch, "iso"] : List String) = true :=
    List.elem_eq_true_of_mem (List.mem_append_right _ (List.mem_of_elem_eq_true hdir))
  simp only [moveIsoAndItsArtifactsToIsosArchFolder, List.nil_append, Option.getD_none]
  rw [if_pos hguard]
  rfl

theorem moveIso_checksum (repoName arch : String) (fs : FS6) (cS : String)
    (hnodup : pathsNodup fs.files) (hrepo : repoName ≠ "isos")
    (hdir : fs.dirs.contains ([repoName, arch, "iso"] : List String) = true)
    (hsrc : lookupF fs.files ([repoName, arch, "iso"] ++ ["CHECKSUM"]) = some cS) :
    lookupF (moveIsoAndItsArtifactsToIsosArchFolder [] repoName arch
        [".iso", ".manifest"] none fs).files (["isos", arch] ++ ["CHECKSUM"]) =
      some (((lookupF fs.files (["isos", arch] ++ ["CHECKSUM"])).getD "") ++ cS) := by
  have hne : ([repoName, arch, "iso"] : List String) ≠ ["isos", arch] := by
    intro h
    have := congrArg List.length h
    simp at this
  have hmis : isUnder [repoName, arch, "iso"] (["isos", arch] ++ ["CHECKSUM"]) = false :=
    isUnder_cons_ne repoName "isos" _ _ hrepo
  have hnom := foldPass_lookup_nomatch [repoName, arch, "iso"] ["isos", arch] hne
    [".iso", ".manifest"] (makedirsF ["isos", arch] fs) "CHECKSUM" (by decide)
  rw [moveIso_run_eq repoName arch [".iso", ".manifest"] fs hdir,
    rmtreeF_lookup_keep _ _ _ hmis,
    appendChecksum_writes _ _ _ cS (hnom.1.trans hsrc), hnom.2]
  rfl

theorem moveIso_preserves (repoName arch : String) (exts : List String) (fs : FS6)
    (q : List String) (hq1 : isUnder [repoName, arch, "iso"] q = false)
    (hq2 : isUnder ["isos", arch] q = false)
    (hdir : fs.dirs.contains ([repoName, arch, "iso"] : List String) = true) :
    lookupF (moveIsoAndItsArtifactsToIsosArchFolder [] repoName arch exts none fs).files q =
      lookupF fs.files q := by
  rw [moveIso_run_eq repoName arch exts fs hdir, rmtreeF_lookup_keep _ _ _ hq1,
    appendChecksum_lookup_other _ _ _ _ (fun he => by
      rw [he, isUnder_append] at hq2
      cases hq2)]
  exact foldPass_lookup_other _ _ exts _ q hq1 hq2

theorem moveIso_nodup (repoName arch : String) (exts : List String) (fs : FS6)
    (hnodup : pathsNodup fs.files)
    (hdir : fs.dirs.contains ([repoName, arch, "iso"] : List String) = true) :
    pathsNodup (moveIsoAndItsArtifactsToIsosArchFolder [] repoName arch exts
      none fs).files := by
  rw [moveIso_run_eq repoName arch exts fs hdir]
  exact rmtreeF_nodup _ _ (appendChecksum_nodup _ _ _ (foldPass_nodup _ _ exts _ hnodup))

theorem moveIso_dir_kept (repoName arch : String) (exts : List String) (fs : FS6)
    (p : List String) (hp : fs.dirs.contains p = true)
    (hunder : isUnder [repoName, arch, "iso"] p = false)
    (hdir : fs.dirs.contains ([repoName, arch, "iso"] : List String) = true) :
    (moveIsoAndItsArtifactsToIsosArchFolder [] repoName arch exts none fs).dirs.contains
      p = true := by
  rw [moveIso_run_eq repoName arch exts fs hdir]
  apply List.elem_eq_true_of_mem
  apply rmtreeF_dir_kept _ _ _ _ hunder
  have e1 : (appendChecksum [repoName, arch, "iso"] ["isos", arch]
      (exts.foldl (fun f sfx => movePass [repoName, arch, "iso"] ["isos", arch] sfx f)
        (makedirsF ["isos", arch] fs))).dirs =
      (makedirsF ["isos", arch] fs).dirs := by
    rw [appendChecksum_dirs, foldPass_dirs]
  rw [e1]
  exact List.mem_append_right _ (List.mem_of_elem_eq_true hp)

/-- Claim C8: the per-architecture CHECKSUM consolidation appends rather
than overwrites — collecting variant A's ISO artifacts and then variant B's,
each with an existing source CHECKSUM and with no shared CHECKSUM yet,
leaves `isos/<arch>/CHECKSUM` holding A's content followed by B's. -/
theorem claim_C8 (vA vB arch : String) (cA cB : String) (fs : FS6)
    (hnodup : pathsNodup fs.files)
    (hA : vA ≠ "isos") (hB : vB ≠ "isos") (hAB : vA ≠ vB)
    (hdA : fs.dirs.contains ([vA, arch, "iso"] : List String) = true)
    (hdB : fs.dirs.contains ([vB, arch, "iso"] : List String) = true)
    (hcA : lookupF fs.files ([vA, arch, "iso"] ++ ["CHECKSUM"]) = some cA)
    (hcB : lookupF fs.files ([vB, arch, "iso"] ++ ["CHECKSUM"]) = some cB)
    (hdst : lookupF fs.files (["isos", arch] ++ ["CHECKSUM"]) = none) :
    lookupF (moveIsoAndItsArtifactsToIsosArchFolder [] vB arch [".iso", ".manifest"] none
        (moveIsoAndItsArtifactsToIsosArchFolder [] vA arch [".iso", ".manifest"] none
          fs)).files (["isos", arch] ++ ["CHECKSUM"]) = some (cA ++ cB) := by
  have hstep1 : lookupF (moveIsoAndItsArtifactsToIsosArchFolder [] vA arch
      [".iso", ".manifest"] none fs).files (["isos", arch] ++ ["CHECKSUM"]) = some cA := by
    rw [moveIso_checksum vA arch fs cA hnodup hA hdA hcA, hdst]
    simp only [Option.getD_none, String.empty_append]
  have hstep2 : lookupF (moveIsoAndItsArtifactsToIsosArchFolder [] vA arch
      [".iso", ".manifest"] none fs).files ([vB, arch, "iso"] ++ ["CHECKSUM"]) =
      some cB := by
    rw [moveIso_preserves vA arch [".iso", ".manifest"] fs
      ([vB, arch, "iso"] ++ ["CHECKSUM"])
      (isUnder_cons_ne vA vB _ _ hAB) (isUnder_cons_ne "isos" vB _ _ (Ne.symm hB)) hdA]
    exact hcB
  have hstep3 : (moveIsoAndItsArtifactsToIsosArchFolder [] vA arch [".iso", ".manifest"]
      none fs).dirs.contains ([vB, arch, "iso"] : List String) = true :=
    moveIso_dir_kept vA arch [".iso", ".manifest"] fs _ hdB
      (isUnder_cons_ne vA vB _ _ hAB) hdA
  have hstep4 : pathsNodup (moveIsoAndItsArtifactsToIsosArchFolder [] vA arch
      [".iso", ".manifest"] none fs).files :=
    moveIso_nodup vA arch [".iso", ".manifest"] fs hnodup hdA
  rw [moveIso_checksum vB arch _ cB hstep4 hB hstep3 hstep2, hstep1]
  rfl

/-- Witness for C8: on a concrete tree with `AppStream` and `BaseOS`
checksum files `a\n` and `b\n`, the shared CHECKSUM ends up as their
concatenation in collection order. -/
theorem claim_C8_witness :
    lookupF (moveIsoAndItsArtifactsToIsosArchFolder [] "BaseOS" "x86_64"
        [".iso", ".manifest"] none
        (moveIsoAndItsArtifactsToIsosArchFolder [] "AppStream" "x86_64"
          [".iso", ".manifest"] none exampleIsoFS3)).files
      (["isos", "x86_64"] ++ ["CHECKSUM"]) = some ("a\n" ++ "b\n") :=
  claim_C8 "AppStream" "BaseOS" "x86_64" "a\n" "b\n" exampleIsoFS3
    (by decide) (by decide) (by decide) (by decide) (by decide) (by decide)
    (by decide) (by decide) (by decide)
